import Mathlib

/-!
Verification of the Sudoku solver in `main.go`.

The 9×9 board `var board [SIZE][SIZE]int` holds integers in `{0, …, 9}`
(0 = empty).  It is embedded as a single natural number: the cell at
`(i, j)` is the base-10 digit of weight `10 ^ (9 * i + j)`.  Reading a
cell is `digit`, writing one is `setDigit`; a number below `10 ^ 81`
corresponds to exactly one board.  The Go presence-tracking slices
(`make([]bool, SIZE+1)`) are embedded as functions `Nat → Bool`.

The recursive solver carries an explicit fuel argument bounding the
recursion depth; `solve` supplies fuel 82, which is enough for every
board because each placement strictly decreases the number of empty
cells (`countEmpty_lt_fuel` results below).  The hot loops are written
with `Nat.rec`/`List.rec` directly and with the primitive `Nat`
operations, so that the kernel can evaluate the search on concrete
puzzles; the bridge lemmas right after each definition restate them in
ordinary notation, and the proofs work with those.
-/

namespace Sudoku

/-- A board: the 81 cells stored as the base-10 digits of a natural
number, cell `(i, j)` at weight `10 ^ (9 * i + j)`. -/
abbrev Board := Nat

/-- Digit of weight `10 ^ k` of `n`. -/
def digit (n k : Nat) : Nat := Nat.mod (Nat.div n (Nat.pow 10 k)) 10

/-- Replace the digit of weight `10 ^ k` of `n` by `v`. -/
def setDigit (n k v : Nat) : Nat :=
  Nat.add
    (Nat.add (Nat.mul (Nat.div n (Nat.pow 10 (k + 1))) (Nat.pow 10 (k + 1)))
      (Nat.mul v (Nat.pow 10 k)))
    (Nat.mod n (Nat.pow 10 k))

theorem digit_def (n k : Nat) : digit n k = n / 10 ^ k % 10 := rfl

theorem setDigit_def (n k v : Nat) :
    setDigit n k v = n / 10 ^ (k + 1) * 10 ^ (k + 1) + v * 10 ^ k + n % 10 ^ k := rfl

/-- Read cell `(i, j)` (Go `board[i][j]`). -/
def get (b : Board) (i j : Nat) : Nat := digit b (Nat.add (Nat.mul 9 i) j)

/-- Write value `v` at cell `(i, j)` (Go `board[i][j] = v`). -/
def set (b : Board) (i j v : Nat) : Board := setDigit b (Nat.add (Nat.mul 9 i) j) v

theorem get_def (b : Board) (i j : Nat) : get b i j = digit b (9 * i + j) := rfl

theorem set_def (b : Board) (i j v : Nat) : set b i j v = setDigit b (9 * i + j) v := rfl

/-- The column indices `0, …, 8`, in loop order. -/
def idx9 : List Nat := [0, 1, 2, 3, 4, 5, 6, 7, 8]

/-- The cell offsets of a 3×3 subgrid, in the order Go's nested loops visit them. -/
def boxIdx : List (Nat × Nat) :=
  [(0, 0), (0, 1), (0, 2), (1, 0), (1, 1), (1, 2), (2, 0), (2, 1), (2, 2)]

/-- The candidate digits `1, …, 9`, in the order Go's `for num` loop tries them. -/
def nums9 : List Nat := [1, 2, 3, 4, 5, 6, 7, 8, 9]

/-- The 81 cell coordinates in row-major order. -/
def cells : List (Nat × Nat) :=
  (List.range 9).flatMap fun i => (List.range 9).map fun j => (i, j)

/-- Scan a list of coordinates for the first empty cell. -/
def findEmptyAux (b : Board) : List (Nat × Nat) → Option (Nat × Nat) :=
  List.rec none fun p _ ih => cond (Nat.beq (get b p.1 p.2) 0) (some p) ih

/-- Go `findEmpty()`: first empty cell in row-major order; the
`(-1, -1, false)` sentinel becomes `none`. -/
def findEmpty (b : Board) : Option (Nat × Nat) := findEmptyAux b cells

/-- `cond` on a `Nat.beq` test is an `if` on the equality. -/
theorem cond_beq {α : Type} (x y : Nat) (a b : α) :
    cond (Nat.beq x y) a b = if x = y then a else b := by
  rcases hb : Nat.beq x y with _ | _
  · rw [cond_false, if_neg (Nat.ne_of_beq_eq_false hb)]
  · rw [cond_true, if_pos (Nat.eq_of_beq_eq_true hb)]

/-- `cond` on a `Nat.ble` test is an `if` on the inequality. -/
theorem cond_ble {α : Type} (x y : Nat) (a b : α) :
    cond (Nat.ble x y) a b = if x ≤ y then a else b := by
  rcases hb : Nat.ble x y with _ | _
  · rw [cond_false, if_neg fun hc => by rw [Nat.ble_eq_true_of_le hc] at hb; cases hb]
  · rw [cond_true, if_pos (Nat.le_of_ble_eq_true hb)]

theorem findEmptyAux_nil (b : Board) : findEmptyAux b [] = none := rfl

theorem findEmptyAux_cons (b : Board) (p : Nat × Nat) (ps : List (Nat × Nat)) :
    findEmptyAux b (p :: ps) =
      if get b p.1 p.2 = 0 then some p else findEmptyAux b ps :=
  cond_beq _ _ _ _

/-- The row/column scan of Go `isSafe`: walks the indices, failing as soon
as `num` is seen in row `row` or column `col`. -/
def isSafeRowCol (b : Board) (row col num : Nat) : List Nat → Bool :=
  List.rec true fun i _ ih =>
    cond (Nat.beq (get b row i) num || Nat.beq (get b i col) num) false ih

/-- The 3×3 subgrid scan of Go `isSafe`, over the box with top-left `(sr, sc)`. -/
def isSafeBox (b : Board) (sr sc num : Nat) : List (Nat × Nat) → Bool :=
  List.rec true fun p _ ih =>
    cond (Nat.beq (get b (Nat.add sr p.1) (Nat.add sc p.2)) num) false ih

/-- Go `isSafe(row, col, num)`: `num` occurs nowhere in the row, the column,
or the 3×3 subgrid of `(row, col)` (whose corner is `(row/3*3, col/3*3)`). -/
def isSafe (b : Board) (row col num : Nat) : Bool :=
  isSafeRowCol b row col num idx9 &&
    isSafeBox b (Nat.mul (Nat.div row 3) 3) (Nat.mul (Nat.div col 3) 3) num boxIdx

theorem isSafeRowCol_nil (b : Board) (row col num : Nat) :
    isSafeRowCol b row col num [] = true := rfl

theorem isSafeRowCol_cons (b : Board) (row col num i : Nat) (l : List Nat) :
    isSafeRowCol b row col num (i :: l) =
      if get b row i = num ∨ get b i col = num then false
      else isSafeRowCol b row col num l := by
  show cond (Nat.beq (get b row i) num || Nat.beq (get b i col) num) false
      (isSafeRowCol b row col num l) = _
  rcases h1 : Nat.beq (get b row i) num with _ | _ <;>
    rcases h2 : Nat.beq (get b i col) num with _ | _
  · have hne : ¬ (get b row i = num ∨ get b i col = num) := by
      rintro (hc | hc)
      · exact Nat.ne_of_beq_eq_false h1 hc
      · exact Nat.ne_of_beq_eq_false h2 hc
    rw [Bool.or_self, cond_false, if_neg hne]
  · rw [Bool.false_or, cond_true, if_pos (Or.inr (Nat.eq_of_beq_eq_true h2))]
  · rw [Bool.or_false, cond_true, if_pos (Or.inl (Nat.eq_of_beq_eq_true h1))]
  · rw [Bool.or_self, cond_true, if_pos (Or.inl (Nat.eq_of_beq_eq_true h1))]

theorem isSafeBox_nil (b : Board) (sr sc num : Nat) :
    isSafeBox b sr sc num [] = true := rfl

theorem isSafeBox_cons (b : Board) (sr sc num : Nat) (p : Nat × Nat)
    (l : List (Nat × Nat)) :
    isSafeBox b sr sc num (p :: l) =
      if get b (sr + p.1) (sc + p.2) = num then false
      else isSafeBox b sr sc num l :=
  cond_beq _ _ _ _

theorem isSafe_def (b : Board) (row col num : Nat) :
    isSafe b row col num =
      (isSafeRowCol b row col num idx9 &&
        isSafeBox b (row / 3 * 3) (col / 3 * 3) num boxIdx) := rfl

/-- Mark value `v` in a presence set (Go `row[value] = true`). -/
def markSet (m : Nat → Bool) (v : Nat) : Nat → Bool := fun x => if x = v then true else m x

/-- Fresh presence set (Go `make([]bool, SIZE+1)`), all entries false. -/
def noMarks : Nat → Bool := fun _ => false

/-- The combined row/column scan of Go `isValid` for a fixed index `i`:
walks `j` over the remaining indices `js`, checking `board[i][j]` against
the row marks and `board[j][i]` against the column marks, failing on the
first repeated non-zero digit. -/
def rcLoop (b : Board) (i : Nat) : List Nat → (Nat → Bool) → (Nat → Bool) → Bool
  | [], _, _ => true
  | j :: js, row, col =>
    let v := get b i j
    if v ≠ 0 && row v then false
    else
      let row1 := if v ≠ 0 then markSet row v else row
      let w := get b j i
      if w ≠ 0 && col w then false
      else rcLoop b i js row1 (if w ≠ 0 then markSet col w else col)

/-- The marks scan of Go `isValidSubgrid`: walks the 9 cells of the box with
top-left corner `(sr, sc)`, failing on the first repeated non-zero digit. -/
def sgLoop (b : Board) (sr sc : Nat) : List (Nat × Nat) → (Nat → Bool) → Bool
  | [], _ => true
  | p :: ps, marks =>
    let v := get b (sr + p.1) (sc + p.2)
    if v ≠ 0 && marks v then false
    else sgLoop b sr sc ps (if v ≠ 0 then markSet marks v else marks)

/-- Go `isValidSubgrid(startRow, startCol)`. -/
def isValidSubgrid (b : Board) (sr sc : Nat) : Bool :=
  sgLoop b sr sc boxIdx noMarks

/-- Go `isValid()`: row/column scans for each index, then the nine subgrids. -/
def isValid (b : Board) : Bool :=
  ((List.range 9).all fun i => rcLoop b i (List.range 9) noMarks noMarks) &&
    (([0, 3, 6] : List Nat).all fun sr => ([0, 3, 6] : List Nat).all fun sc =>
      isValidSubgrid b sr sc)

/-- The mutable program state of the search: the working grid (`board`),
the solution counter (`*solutions`) and the captured first solution
(`var solution [SIZE][SIZE]int`). -/
structure SState where
  board : Board
  solutions : Nat
  solution : Board
  deriving DecidableEq

/-- Go `copySolution()`: snapshot the working grid into the solution buffer. -/
def copySolution (s : SState) : SState := { s with solution := s.board }

/-- The `for num := 1; num <= 9; num++` loop of Go `solve`: try each
candidate in order — if it is safe, place it, run the continuation `rec`
(the recursive solver call), and unconditionally reset the cell to 0. -/
def solveLoop (rec : Nat → SState → SState) (limit row col : Nat) :
    List Nat → SState → SState :=
  List.rec (fun s => s) fun num _ ih s =>
    cond (isSafe s.board row col num)
      (let s1 : SState := { s with board := set s.board row col num }
       let s2 := rec limit s1
       let s3 : SState := { s2 with board := set s2.board row col 0 }
       ih s3)
      (ih s)

/-- Go `solve(solutions, limit)`, with an explicit fuel argument bounding
the recursion depth: return at once if the counter reached the limit;
otherwise find the first empty cell; if none, count (and on the first
find, capture) a solution; else try the nine candidates. -/
def solveF : Nat → Nat → SState → SState := fun fuel =>
  Nat.rec (motive := fun _ => Nat → SState → SState)
    (fun _ s => s)
    (fun _ ih limit s =>
      cond (Nat.ble limit s.solutions) s
        (match findEmpty s.board with
         | none =>
           let s1 : SState := { s with solutions := s.solutions + 1 }
           cond (Nat.beq s1.solutions 1) (copySolution s1) s1
         | some p => solveLoop ih limit p.1 p.2 nums9 s))
    fuel

/-- The solver as called by `main`: fuel 82 covers every board. -/
def solve (limit : Nat) (s : SState) : SState := solveF 82 limit s

theorem solveLoop_nil (rec : Nat → SState → SState) (limit row col : Nat) (s : SState) :
    solveLoop rec limit row col [] s = s := rfl

theorem solveLoop_cons (rec : Nat → SState → SState) (limit row col num : Nat)
    (nums : List Nat) (s : SState) :
    solveLoop rec limit row col (num :: nums) s =
      cond (isSafe s.board row col num)
        (solveLoop rec limit row col nums
          (let s2 := rec limit { s with board := set s.board row col num }
           { s2 with board := set s2.board row col 0 }))
        (solveLoop rec limit row col nums s) := rfl

theorem solveLoop_cons_ite (rec : Nat → SState → SState) (limit row col num : Nat)
    (nums : List Nat) (s : SState) :
    solveLoop rec limit row col (num :: nums) s =
      if isSafe s.board row col num = true then
        solveLoop rec limit row col nums
          (let s2 := rec limit { s with board := set s.board row col num }
           { s2 with board := set s2.board row col 0 })
      else solveLoop rec limit row col nums s := by
  rw [solveLoop_cons, Bool.cond_eq_ite]

theorem solveF_zero (limit : Nat) (s : SState) : solveF 0 limit s = s := rfl

theorem solveF_succ (fuel limit : Nat) (s : SState) :
    solveF (fuel + 1) limit s =
      cond (Nat.ble limit s.solutions) s
        (match findEmpty s.board with
         | none =>
           let s1 : SState := { s with solutions := s.solutions + 1 }
           cond (Nat.beq s1.solutions 1) (copySolution s1) s1
         | some p => solveLoop (solveF fuel) limit p.1 p.2 nums9 s) := rfl

theorem solveF_succ_ite (fuel limit : Nat) (s : SState) :
    solveF (fuel + 1) limit s =
      if limit ≤ s.solutions then s
      else
        match findEmpty s.board with
        | none =>
          let s1 : SState := { s with solutions := s.solutions + 1 }
          if s1.solutions = 1 then copySolution s1 else s1
        | some p => solveLoop (solveF fuel) limit p.1 p.2 nums9 s := by
  rw [solveF_succ, cond_ble]
  by_cases hle : limit ≤ s.solutions
  · rw [if_pos hle, if_pos hle]
  · rw [if_neg hle, if_neg hle]
    rcases hfe : findEmpty s.board with _ | p
    · exact cond_beq _ _ _ _
    · rfl

/-- The number of complete solutions reachable from `b` by the same search
order as `solve`, with no cutoff: the specification-side count that the
solution counter approximates (see `solveF_solutions_eq_min`). -/
def countLoop (rec : Board → Nat) (b : Board) (row col : Nat) : List Nat → Nat :=
  List.rec 0 fun num _ ih =>
    Nat.add (cond (isSafe b row col num) (rec (set b row col num)) 0) ih

/-- Fuel-indexed solution counter: 1 for a full board, else the sum over
safe candidates at the first empty cell. -/
def countSolsF : Nat → Board → Nat := fun fuel =>
  Nat.rec (motive := fun _ => Board → Nat)
    (fun _ => 0)
    (fun _ ih b =>
      match findEmpty b with
      | none => 1
      | some p => countLoop ih b p.1 p.2 nums9)
    fuel

theorem countLoop_nil (rec : Board → Nat) (b : Board) (row col : Nat) :
    countLoop rec b row col [] = 0 := rfl

theorem countLoop_cons (rec : Board → Nat) (b : Board) (row col num : Nat)
    (nums : List Nat) :
    countLoop rec b row col (num :: nums) =
      (if isSafe b row col num = true then rec (set b row col num) else 0) +
        countLoop rec b row col nums := by
  show Nat.add (cond (isSafe b row col num) (rec (set b row col num)) 0) _ = _
  rw [Bool.cond_eq_ite]
  rfl

theorem countSolsF_zero (b : Board) : countSolsF 0 b = 0 := rfl

theorem countSolsF_succ (fuel : Nat) (b : Board) :
    countSolsF (fuel + 1) b =
      match findEmpty b with
      | none => 1
      | some p => countLoop (countSolsF fuel) b p.1 p.2 nums9 := rfl

/-! ### The command-line boundary: parsing and printing -/

/-- Go's per-character parse: `'.'` ↦ 0, `'1'`–`'9'` ↦ its digit value,
anything else is a parse error. -/
def charToCell (ch : Char) : Option Nat :=
  if ch = '.' then some 0
  else if '1' ≤ ch ∧ ch ≤ '9' then some (ch.toNat - Char.toNat '0')
  else none

/-- Parse one row's characters (the `for j, ch := range line` loop). -/
def parseRow : List Char → Option (List Nat)
  | [] => some []
  | ch :: rest =>
    match charToCell ch with
    | none => none
    | some v =>
      match parseRow rest with
      | none => none
      | some vs => some (v :: vs)

/-- Parse one input line: Go first checks `len(line) != SIZE`. -/
def parseLine (s : String) : Option (List Nat) :=
  if s.length = 9 then parseRow s.data else none

/-- Parse the nine row arguments. -/
def parseRows : List String → Option (List (List Nat))
  | [] => some []
  | line :: rest =>
    match parseLine line with
    | none => none
    | some row =>
      match parseRows rest with
      | none => none
      | some rows => some (row :: rows)

/-- Pack one parsed row into its 9 digit positions. -/
def packRow : List Nat → Nat
  | [] => 0
  | v :: vs => v + 10 * packRow vs

/-- Pack the parsed rows into a board: row `i` occupies the digits of
weight `10 ^ (9 * i)` through `10 ^ (9 * i + 8)`, so cell `(i, j)` lands
at weight `10 ^ (9 * i + j)` — the assignments `board[i][j] = v` of Go's
parse loop. -/
def pack : List (List Nat) → Board
  | [] => 0
  | r :: rs => packRow r + 10 ^ 9 * pack rs

/-- Render one board row as Go `printBoard` does: digits separated by
single spaces, no trailing space. -/
def rowStr (b : Board) (i : Nat) : String :=
  (List.range 9).foldl
    (fun acc j => acc ++ Nat.repr (get b i j) ++ (if j ≠ 9 - 1 then " " else "")) ""

/-- Go `printBoard(b)`: the nine printed lines. -/
def printBoard (b : Board) : List String := (List.range 9).map fun i => rowStr b i

/-- Model of Go `main`: from `os.Args` (program name included) to the
printed lines; the Bool records whether `solve` was invoked. -/
def mainModel (args : List String) : List String × Bool :=
  if args.length ≠ 9 + 1 then (["Error"], false)
  else
    match parseRows (args.drop 1) with
    | none => (["Error"], false)
    | some rows =>
      let b := pack rows
      if isValid b then
        let r := solve 2 { board := b, solutions := 0, solution := 0 }
        if r.solutions = 1 then (printBoard r.solution, true)
        else (["Error"], true)
      else (["Error"], false)

/-- The printed output of the program. -/
def run (args : List String) : List String := (mainModel args).1

/-! ### Digit arithmetic: reading and writing single cells -/

theorem digit_lt_ten (n k : Nat) : digit n k < 10 := by
  rw [digit_def]
  exact Nat.mod_lt _ (by norm_num)

theorem pow_ten_pos (k : Nat) : 0 < 10 ^ k := pow_pos (by norm_num) k

/-- Every number splits as high part, tracked digit, low part. -/
theorem digit_decomp (n k : Nat) :
    n = n / 10 ^ (k + 1) * 10 ^ (k + 1) + digit n k * 10 ^ k + n % 10 ^ k := by
  have h1 : n % 10 ^ (k + 1) = n % 10 ^ k + 10 ^ k * (n / 10 ^ k % 10) := by
    rw [pow_succ]
    exact Nat.mod_mul
  have h2 := Nat.div_add_mod n (10 ^ (k + 1))
  have hc1 : n / 10 ^ (k + 1) * 10 ^ (k + 1) = 10 ^ (k + 1) * (n / 10 ^ (k + 1)) :=
    Nat.mul_comm _ _
  have hc2 : n / 10 ^ k % 10 * 10 ^ k = 10 ^ k * (n / 10 ^ k % 10) := Nat.mul_comm _ _
  rw [digit_def]
  omega

theorem setDigit_self (n k : Nat) : setDigit n k (digit n k) = n := by
  rw [setDigit_def]
  have := digit_decomp n k
  omega

/-- The written part of `setDigit` is small. -/
theorem setDigit_small (n k v : Nat) (hv : v < 10) :
    v * 10 ^ k + n % 10 ^ k < 10 ^ (k + 1) := by
  have h1 : v * 10 ^ k ≤ 9 * 10 ^ k := Nat.mul_le_mul_right _ (by omega)
  have h2 : n % 10 ^ k < 10 ^ k := Nat.mod_lt _ (pow_ten_pos k)
  have h3 : 10 ^ (k + 1) = 10 ^ k * 10 := pow_succ 10 k
  omega

theorem setDigit_div_high (n k v : Nat) (hv : v < 10) :
    setDigit n k v / 10 ^ (k + 1) = n / 10 ^ (k + 1) := by
  rw [setDigit_def, Nat.add_assoc, Nat.mul_comm (n / 10 ^ (k + 1)),
    Nat.mul_add_div (pow_ten_pos (k + 1))]
  rw [Nat.div_eq_of_lt (setDigit_small n k v hv), Nat.add_zero]

theorem setDigit_mod_low (n k v : Nat) : setDigit n k v % 10 ^ k = n % 10 ^ k := by
  rw [setDigit_def]
  have h3 : 10 ^ (k + 1) = 10 ^ k * 10 := pow_succ 10 k
  have he : n / 10 ^ (k + 1) * 10 ^ (k + 1) + v * 10 ^ k =
      10 ^ k * (n / 10 ^ (k + 1) * 10 + v) := by rw [h3]; ring
  rw [Nat.add_comm _ (n % 10 ^ k), he, Nat.add_mul_mod_self_left,
    Nat.mod_eq_of_lt (Nat.mod_lt _ (pow_ten_pos k))]

theorem digit_setDigit_eq (n k v : Nat) (hv : v < 10) :
    digit (setDigit n k v) k = v := by
  rw [digit_def, setDigit_def]
  have h3 : 10 ^ (k + 1) = 10 ^ k * 10 := pow_succ 10 k
  have he : n / 10 ^ (k + 1) * 10 ^ (k + 1) + v * 10 ^ k + n % 10 ^ k =
      (10 * (n / 10 ^ (k + 1)) + v) * 10 ^ k + n % 10 ^ k := by rw [h3]; ring
  rw [he, Nat.mul_comm _ (10 ^ k), Nat.mul_add_div (pow_ten_pos k),
    Nat.div_eq_of_lt (Nat.mod_lt _ (pow_ten_pos k)), Nat.add_zero,
    Nat.mul_add_mod, Nat.mod_eq_of_lt hv]

theorem digit_zero_eq (n : Nat) : digit n 0 = n % 10 := by
  rw [digit_def, pow_zero, Nat.div_one]

theorem digit_succ_eq (n k : Nat) : digit n (k + 1) = digit (n / 10) k := by
  rw [digit_def, digit_def, Nat.div_div_eq_div_mul]
  congr 2
  rw [pow_succ]
  ring

/-- A digit below the split point only depends on the low remainder. -/
theorem digit_eq_mod (n kk k : Nat) (h : k < kk) :
    digit n k = digit (n % 10 ^ kk) k := by
  rw [digit_def, digit_def]
  have hQ : 10 ^ kk = 10 ^ k * (10 * 10 ^ (kk - (k + 1))) := by
    have he : k + 1 + (kk - (k + 1)) = kk := by omega
    calc 10 ^ kk = 10 ^ (k + 1 + (kk - (k + 1))) := by rw [he]
    _ = 10 ^ (k + 1) * 10 ^ (kk - (k + 1)) := pow_add 10 _ _
    _ = 10 ^ k * (10 * 10 ^ (kk - (k + 1))) := by rw [pow_succ]; ring
  have hsplit : n = 10 ^ k * (10 * (10 ^ (kk - (k + 1)) * (n / 10 ^ kk))) + n % 10 ^ kk := by
    have hd := Nat.div_add_mod n (10 ^ kk)
    have he2 : 10 ^ kk * (n / 10 ^ kk) =
        10 ^ k * (10 * (10 ^ (kk - (k + 1)) * (n / 10 ^ kk))) := by
      rw [hQ]; ring
    omega
  conv_lhs => rw [hsplit]
  rw [Nat.mul_add_div (pow_ten_pos k), Nat.mul_add_mod]

theorem digit_setDigit_lt (n k v k' : Nat) (h : k' < k) :
    digit (setDigit n k v) k' = digit n k' := by
  rw [digit_eq_mod (setDigit n k v) k k' h, digit_eq_mod n k k' h, setDigit_mod_low]

theorem digit_div_high (n k k' : Nat) : digit (n / 10 ^ k) k' = digit n (k + k') := by
  rw [digit_def, digit_def, Nat.div_div_eq_div_mul, ← pow_add]

theorem digit_setDigit_gt (n k v k' : Nat) (h : k < k') (hv : v < 10) :
    digit (setDigit n k v) k' = digit n k' := by
  have h1 : k' = k + 1 + (k' - (k + 1)) := by omega
  rw [h1, ← digit_div_high, ← digit_div_high, setDigit_div_high n k v hv]

theorem digit_setDigit_ne (n k v k' : Nat) (h : k' ≠ k) (hv : v < 10) :
    digit (setDigit n k v) k' = digit n k' := by
  rcases Nat.lt_or_ge k' k with hlt | hge
  · exact digit_setDigit_lt n k v k' hlt
  · exact digit_setDigit_gt n k v k' (by omega) hv

theorem setDigit_lt_pow (n k v : Nat) (hn : n < 10 ^ 81) (hk : k < 81) (hv : v < 10) :
    setDigit n k v < 10 ^ 81 := by
  have hsm := setDigit_small n k v hv
  have hhi : n / 10 ^ (k + 1) < 10 ^ (81 - (k + 1)) := by
    rw [Nat.div_lt_iff_lt_mul (pow_ten_pos (k + 1))]
    calc n < 10 ^ 81 := hn
    _ = 10 ^ (81 - (k + 1)) * 10 ^ (k + 1) := by rw [← pow_add]; congr 1; omega
  have h1 : setDigit n k v < (n / 10 ^ (k + 1) + 1) * 10 ^ (k + 1) := by
    have he : (n / 10 ^ (k + 1) + 1) * 10 ^ (k + 1) =
        n / 10 ^ (k + 1) * 10 ^ (k + 1) + 10 ^ (k + 1) := by ring
    rw [setDigit_def]
    omega
  calc setDigit n k v < (n / 10 ^ (k + 1) + 1) * 10 ^ (k + 1) := h1
  _ ≤ 10 ^ (81 - (k + 1)) * 10 ^ (k + 1) := Nat.mul_le_mul_right _ (by omega)
  _ = 10 ^ 81 := by rw [← pow_add]; congr 1; omega

/-- Two numbers below `10 ^ t` with the same `t` digits are equal. -/
theorem digit_ext : ∀ t m n : Nat, m < 10 ^ t → n < 10 ^ t →
    (∀ k, k < t → digit m k = digit n k) → m = n := by
  intro t
  induction t with
  | zero =>
    intro m n hm hn _
    rw [pow_zero] at hm hn
    omega
  | succ t ih =>
    intro m n hm hn h
    have h0 : m % 10 = n % 10 := by
      have := h 0 (Nat.succ_pos t)
      rwa [digit_zero_eq, digit_zero_eq] at this
    have hdiv : m / 10 = n / 10 := by
      apply ih
      · rw [Nat.div_lt_iff_lt_mul (by norm_num)]
        calc m < 10 ^ (t + 1) := hm
        _ = 10 ^ t * 10 := pow_succ 10 t
      · rw [Nat.div_lt_iff_lt_mul (by norm_num)]
        calc n < 10 ^ (t + 1) := hn
        _ = 10 ^ t * 10 := pow_succ 10 t
      · intro k hk
        have := h (k + 1) (by omega)
        rwa [digit_succ_eq, digit_succ_eq] at this
    have hm2 := Nat.div_add_mod m 10
    have hn2 := Nat.div_add_mod n 10
    omega

/-! ### Cell-level consequences -/

theorem get_lt_ten (b : Board) (i j : Nat) : get b i j < 10 := digit_lt_ten _ _

theorem get_set_self (b : Board) (i j v : Nat) (hv : v < 10) :
    get (set b i j v) i j = v := by
  rw [get_def, set_def]
  exact digit_setDigit_eq _ _ _ hv

theorem get_set_ne (b : Board) (i j v i' j' : Nat) (hv : v < 10)
    (hne : 9 * i' + j' ≠ 9 * i + j) :
    get (set b i j v) i' j' = get b i' j' := by
  rw [get_def, set_def, get_def]
  exact digit_setDigit_ne _ _ _ _ hne hv

theorem get_set_ne_cell (b : Board) (i j v i' j' : Nat) (hv : v < 10)
    (hj : j < 9) (hj' : j' < 9) (hne : (i', j') ≠ (i, j)) :
    get (set b i j v) i' j' = get b i' j' := by
  apply get_set_ne b i j v i' j' hv
  intro hc
  apply hne
  have : i' = i ∧ j' = j := by omega
  simp [this.1, this.2]

/-- Resetting a cell that was empty restores the board exactly. -/
theorem set_set_restore (b : Board) (i j num : Nat) (hnum : num < 10)
    (h0 : get b i j = 0) :
    set (set b i j num) i j 0 = b := by
  rw [get_def] at h0
  rw [set_def, set_def]
  have hdh := setDigit_div_high b (9 * i + j) num hnum
  have hml := setDigit_mod_low b (9 * i + j) num
  rw [setDigit_def, hdh, hml]
  have hdec := digit_decomp b (9 * i + j)
  rw [h0] at hdec
  exact hdec.symm

/-- Setting a cell keeps the board in range. -/
theorem set_lt_pow (b : Board) (i j v : Nat) (hb : b < 10 ^ 81)
    (hi : i < 9) (hj : j < 9) (hv : v < 10) :
    set b i j v < 10 ^ 81 := by
  rw [set_def]
  exact setDigit_lt_pow _ _ _ hb (by omega) hv

/-- Boards below `10 ^ 81` agreeing on all 81 cells are equal. -/
theorem boardExt (b1 b2 : Board) (h1 : b1 < 10 ^ 81) (h2 : b2 < 10 ^ 81)
    (h : ∀ i j, i < 9 → j < 9 → get b1 i j = get b2 i j) : b1 = b2 := by
  apply digit_ext 81 b1 b2 h1 h2
  intro k hk
  have hh := h (k / 9) (k % 9) (by omega) (by omega)
  rw [get_def, get_def] at hh
  have he : 9 * (k / 9) + k % 9 = k := by omega
  rwa [he] at hh

/-! ### Specification-side predicates -/

/-- No two distinct cells of a row carry the same non-zero digit. -/
def rowsOK (b : Board) : Prop :=
  ∀ i < 9, ∀ j₁ < 9, ∀ j₂ < 9, j₁ ≠ j₂ → get b i j₁ = get b i j₂ → get b i j₁ = 0

/-- No two distinct cells of a column carry the same non-zero digit. -/
def colsOK (b : Board) : Prop :=
  ∀ j < 9, ∀ i₁ < 9, ∀ i₂ < 9, i₁ ≠ i₂ → get b i₁ j = get b i₂ j → get b i₁ j = 0

/-- Two cells lie in the same aligned 3×3 box. -/
def sameBox (i₁ j₁ i₂ j₂ : Nat) : Prop := i₁ / 3 = i₂ / 3 ∧ j₁ / 3 = j₂ / 3

/-- No two distinct cells of a box carry the same non-zero digit. -/
def boxesOK (b : Board) : Prop :=
  ∀ i₁ < 9, ∀ j₁ < 9, ∀ i₂ < 9, ∀ j₂ < 9, (i₁, j₁) ≠ (i₂, j₂) →
    sameBox i₁ j₁ i₂ j₂ → get b i₁ j₁ = get b i₂ j₂ → get b i₁ j₁ = 0

/-- The non-zero cells form a constraint-satisfying assignment. -/
def Consistent (b : Board) : Prop := rowsOK b ∧ colsOK b ∧ boxesOK b

/-- Some row, column, or box contains two equal non-zero digits. -/
def HasDup (b : Board) : Prop :=
  (∃ i < 9, ∃ j₁ < 9, ∃ j₂ < 9, j₁ ≠ j₂ ∧ get b i j₁ ≠ 0 ∧ get b i j₁ = get b i j₂) ∨
    (∃ j < 9, ∃ i₁ < 9, ∃ i₂ < 9, i₁ ≠ i₂ ∧ get b i₁ j ≠ 0 ∧ get b i₁ j = get b i₂ j) ∨
    (∃ i₁ < 9, ∃ j₁ < 9, ∃ i₂ < 9, ∃ j₂ < 9, (i₁, j₁) ≠ (i₂, j₂) ∧
      sameBox i₁ j₁ i₂ j₂ ∧ get b i₁ j₁ ≠ 0 ∧ get b i₁ j₁ = get b i₂ j₂)

/-- Every cell is filled. -/
def Filled (b : Board) : Prop := ∀ i < 9, ∀ j < 9, get b i j ≠ 0

/-- `h` agrees with `g` on every non-zero cell of `g`. -/
def Extends (g h : Board) : Prop :=
  ∀ i < 9, ∀ j < 9, get g i j ≠ 0 → get h i j = get g i j

/-- `h` is a complete constraint-satisfying assignment extending `g`. -/
def IsCompletion (g h : Board) : Prop :=
  h < 10 ^ 81 ∧ Filled h ∧ Consistent h ∧ Extends g h

theorem hasDup_iff_not_consistent (b : Board) : HasDup b ↔ ¬ Consistent b := by
  constructor
  · rintro (⟨i, hi, j₁, hj₁, j₂, hj₂, hne, h0, heq⟩ |
        ⟨j, hj, i₁, hi₁, i₂, hi₂, hne, h0, heq⟩ |
        ⟨i₁, hi₁, j₁, hj₁, i₂, hi₂, j₂, hj₂, hne, hbox, h0, heq⟩) <;>
      rintro ⟨hr, hc, hb⟩
    · exact h0 (hr i hi j₁ hj₁ j₂ hj₂ hne heq)
    · exact h0 (hc j hj i₁ hi₁ i₂ hi₂ hne heq)
    · exact h0 (hb i₁ hi₁ j₁ hj₁ i₂ hi₂ j₂ hj₂ hne hbox heq)
  · intro h
    by_contra hnd
    apply h
    refine ⟨?_, ?_, ?_⟩
    · intro i hi j₁ hj₁ j₂ hj₂ hne heq
      by_contra h0
      exact hnd (Or.inl ⟨i, hi, j₁, hj₁, j₂, hj₂, hne, h0, heq⟩)
    · intro j hj i₁ hi₁ i₂ hi₂ hne heq
      by_contra h0
      exact hnd (Or.inr (Or.inl ⟨j, hj, i₁, hi₁, i₂, hi₂, hne, h0, heq⟩))
    · intro i₁ hi₁ j₁ hj₁ i₂ hi₂ j₂ hj₂ hne hbox heq
      by_contra h0
      exact hnd (Or.inr (Or.inr ⟨i₁, hi₁, j₁, hj₁, i₂, hi₂, j₂, hj₂, hne, hbox, h0, heq⟩))

/-! ### `findEmpty` and `isSafe` characterizations -/

theorem mem_cells (p : Nat × Nat) : p ∈ cells ↔ p.1 < 9 ∧ p.2 < 9 := by
  rcases p with ⟨i, j⟩
  simp [cells, List.mem_flatMap, List.mem_map, List.mem_range]

theorem cells_nodup : cells.Nodup := by decide

theorem findEmptyAux_eq_none (b : Board) (l : List (Nat × Nat)) :
    findEmptyAux b l = none ↔ ∀ p ∈ l, get b p.1 p.2 ≠ 0 := by
  induction l with
  | nil => simp [findEmptyAux_nil]
  | cons p ps ih =>
    rw [findEmptyAux_cons]
    by_cases h : get b p.1 p.2 = 0 <;> simp [h, ih]

theorem findEmptyAux_eq_some (b : Board) (l : List (Nat × Nat)) (p : Nat × Nat)
    (h : findEmptyAux b l = some p) : p ∈ l ∧ get b p.1 p.2 = 0 := by
  induction l with
  | nil => rw [findEmptyAux_nil] at h; cases h
  | cons q qs ih =>
    rw [findEmptyAux_cons] at h
    by_cases hq : get b q.1 q.2 = 0
    · rw [if_pos hq] at h
      cases h
      exact ⟨List.mem_cons_self _ _, hq⟩
    · rw [if_neg hq] at h
      rcases ih h with ⟨hm, h0⟩
      exact ⟨List.mem_cons_of_mem _ hm, h0⟩

theorem findEmpty_none_iff (b : Board) :
    findEmpty b = none ↔ Filled b := by
  rw [findEmpty, findEmptyAux_eq_none]
  constructor
  · intro h i hi j hj
    exact h (i, j) (by rw [mem_cells]; exact ⟨hi, hj⟩)
  · intro h p hp
    rcases (mem_cells p).mp hp with ⟨h1, h2⟩
    exact h p.1 h1 p.2 h2

theorem findEmpty_some (b : Board) (p : Nat × Nat) (h : findEmpty b = some p) :
    p.1 < 9 ∧ p.2 < 9 ∧ get b p.1 p.2 = 0 := by
  rcases findEmptyAux_eq_some b cells p h with ⟨hm, h0⟩
  rcases (mem_cells p).mp hm with ⟨h1, h2⟩
  exact ⟨h1, h2, h0⟩

theorem mem_idx9 (i : Nat) : i ∈ idx9 ↔ i < 9 := by
  simp [idx9]
  omega

theorem mem_boxIdx (p : Nat × Nat) : p ∈ boxIdx ↔ p.1 < 3 ∧ p.2 < 3 := by
  rcases p with ⟨a, c⟩
  simp [boxIdx, Prod.ext_iff]
  omega

theorem isSafeRowCol_eq_true_iff (b : Board) (row col num : Nat) (l : List Nat) :
    isSafeRowCol b row col num l = true ↔
      ∀ i ∈ l, ¬ (get b row i = num ∨ get b i col = num) := by
  induction l with
  | nil => simp [isSafeRowCol_nil]
  | cons i l ih =>
    rw [isSafeRowCol_cons]
    by_cases h : get b row i = num ∨ get b i col = num
    · rw [if_pos h]
      constructor
      · intro hc
        cases hc
      · intro hall
        exact absurd h (hall i (List.mem_cons_self _ _))
    · rw [if_neg h, ih]
      constructor
      · intro hall j hj
        rcases List.mem_cons.mp hj with rfl | hj'
        · exact h
        · exact hall j hj'
      · intro hall j hj
        exact hall j (List.mem_cons_of_mem _ hj)

theorem isSafeBox_eq_true_iff (b : Board) (sr sc num : Nat) (l : List (Nat × Nat)) :
    isSafeBox b sr sc num l = true ↔
      ∀ p ∈ l, get b (sr + p.1) (sc + p.2) ≠ num := by
  induction l with
  | nil => simp [isSafeBox_nil]
  | cons p l ih =>
    rw [isSafeBox_cons]
    by_cases h : get b (sr + p.1) (sc + p.2) = num
    · rw [if_pos h]
      constructor
      · intro hc
        cases hc
      · intro hall
        exact absurd h (hall p (List.mem_cons_self _ _))
    · rw [if_neg h, ih]
      constructor
      · intro hall q hq
        rcases List.mem_cons.mp hq with rfl | hq'
        · exact h
        · exact hall q hq'
      · intro hall q hq
        exact hall q (List.mem_cons_of_mem _ hq)

/-- `isSafe` scans the whole row, the whole column, and the whole box. -/
theorem isSafe_iff (b : Board) (row col num : Nat) :
    isSafe b row col num = true ↔
      (∀ i < 9, get b row i ≠ num ∧ get b i col ≠ num) ∧
        ∀ a < 3, ∀ c < 3, get b (row / 3 * 3 + a) (col / 3 * 3 + c) ≠ num := by
  rw [isSafe_def, Bool.and_eq_true, isSafeRowCol_eq_true_iff, isSafeBox_eq_true_iff]
  constructor
  · rintro ⟨h1, h2⟩
    refine ⟨fun i hi => ?_, fun a ha c hc => ?_⟩
    · have := h1 i ((mem_idx9 i).mpr hi)
      exact ⟨fun hc => this (Or.inl hc), fun hc => this (Or.inr hc)⟩
    · exact h2 (a, c) ((mem_boxIdx (a, c)).mpr ⟨ha, hc⟩)
  · rintro ⟨h1, h2⟩
    refine ⟨fun i hi => ?_, fun p hp => ?_⟩
    · have := h1 i ((mem_idx9 i).mp hi)
      rintro (hc | hc)
      · exact this.1 hc
      · exact this.2 hc
    · rcases (mem_boxIdx p).mp hp with ⟨ha, hc⟩
      exact h2 p.1 ha p.2 hc

theorem pair_ne (a b x y : Nat) (h : ¬ (a = x ∧ b = y)) : (a, b) ≠ (x, y) := by
  intro he
  injection he with e1 e2
  exact h ⟨e1, e2⟩

/-- Safety of a placement is exactly consistency of the updated grid. -/
theorem isSafe_iff_consistent_set (b : Board) (r c v : Nat)
    (hcons : Consistent b) (h0 : get b r c = 0) (hr : r < 9) (hc : c < 9)
    (hv1 : 1 ≤ v) (hv9 : v ≤ 9) :
    isSafe b r c v = true ↔ Consistent (set b r c v) := by
  have hv10 : v < 10 := by omega
  have hbrc : get (set b r c v) r c = v := get_set_self b r c v hv10
  have hne : ∀ i j, j < 9 → (i, j) ≠ (r, c) → get (set b r c v) i j = get b i j :=
    fun i j hj hnij => get_set_ne_cell b r c v i j hv10 hc hj hnij
  rcases hcons with ⟨hrOK, hcOK, hbOK⟩
  rw [isSafe_iff]
  constructor
  · rintro ⟨hrowcol, hbox⟩
    refine ⟨?_, ?_, ?_⟩
    · -- rows of the updated grid
      intro i hi j₁ hj₁ j₂ hj₂ hjne heq
      by_cases h1 : i = r ∧ j₁ = c
      · obtain ⟨rfl, rfl⟩ := h1
        have h2 : (i, j₂) ≠ (i, j₁) := pair_ne _ _ _ _ fun ha => Ne.symm hjne ha.2
        rw [hbrc, hne i j₂ hj₂ h2] at heq
        exact absurd heq.symm (hrowcol j₂ hj₂).1
      · by_cases h2 : i = r ∧ j₂ = c
        · obtain ⟨rfl, rfl⟩ := h2
          have h1' : (i, j₁) ≠ (i, j₂) := pair_ne _ _ _ _ fun ha => hjne ha.2
          rw [hbrc, hne i j₁ hj₁ h1'] at heq
          rw [hne i j₁ hj₁ h1']
          exact absurd heq (hrowcol j₁ hj₁).1
        · rw [hne i j₁ hj₁ (pair_ne _ _ _ _ h1), hne i j₂ hj₂ (pair_ne _ _ _ _ h2)] at heq
          rw [hne i j₁ hj₁ (pair_ne _ _ _ _ h1)]
          exact hrOK i hi j₁ hj₁ j₂ hj₂ hjne heq
    · -- columns of the updated grid
      intro j hj i₁ hi₁ i₂ hi₂ hine heq
      by_cases h1 : i₁ = r ∧ j = c
      · obtain ⟨rfl, rfl⟩ := h1
        have h2 : (i₂, j) ≠ (i₁, j) := pair_ne _ _ _ _ fun ha => Ne.symm hine ha.1
        rw [hbrc, hne i₂ j hj h2] at heq
        exact absurd heq.symm (hrowcol i₂ hi₂).2
      · by_cases h2 : i₂ = r ∧ j = c
        · obtain ⟨rfl, rfl⟩ := h2
          have h1' : (i₁, j) ≠ (i₂, j) := pair_ne _ _ _ _ fun ha => hine ha.1
          rw [hbrc, hne i₁ j hj h1'] at heq
          rw [hne i₁ j hj h1']
          exact absurd heq (hrowcol i₁ hi₁).2
        · rw [hne i₁ j hj (pair_ne _ _ _ _ h1), hne i₂ j hj (pair_ne _ _ _ _ h2)] at heq
          rw [hne i₁ j hj (pair_ne _ _ _ _ h1)]
          exact hcOK j hj i₁ hi₁ i₂ hi₂ hine heq
    · -- boxes of the updated grid
      intro i₁ hi₁ j₁ hj₁ i₂ hi₂ j₂ hj₂ hpne hbx heq
      by_cases h1 : i₁ = r ∧ j₁ = c
      · obtain ⟨rfl, rfl⟩ := h1
        have h2 : (i₂, j₂) ≠ (i₁, j₁) := Ne.symm hpne
        rw [hbrc, hne i₂ j₂ hj₂ h2] at heq
        rcases hbx with ⟨hbi, hbj⟩
        have hb2 := hbox (i₂ % 3) (by omega) (j₂ % 3) (by omega)
        have he2 : i₁ / 3 * 3 + i₂ % 3 = i₂ := by omega
        have he3 : j₁ / 3 * 3 + j₂ % 3 = j₂ := by omega
        rw [he2, he3] at hb2
        exact absurd heq.symm hb2
      · by_cases h2 : i₂ = r ∧ j₂ = c
        · obtain ⟨rfl, rfl⟩ := h2
          rw [hbrc, hne i₁ j₁ hj₁ (pair_ne _ _ _ _ h1)] at heq
          rw [hne i₁ j₁ hj₁ (pair_ne _ _ _ _ h1)]
          rcases hbx with ⟨hbi, hbj⟩
          have hb2 := hbox (i₁ % 3) (by omega) (j₁ % 3) (by omega)
          have he2 : i₂ / 3 * 3 + i₁ % 3 = i₁ := by omega
          have he3 : j₂ / 3 * 3 + j₁ % 3 = j₁ := by omega
          rw [he2, he3] at hb2
          exact absurd heq hb2
        · rw [hne i₁ j₁ hj₁ (pair_ne _ _ _ _ h1), hne i₂ j₂ hj₂ (pair_ne _ _ _ _ h2)] at heq
          rw [hne i₁ j₁ hj₁ (pair_ne _ _ _ _ h1)]
          exact hbOK i₁ hi₁ j₁ hj₁ i₂ hi₂ j₂ hj₂ hpne hbx heq
  · rintro ⟨hr', hc', hb'⟩
    refine ⟨fun i hi => ⟨?_, ?_⟩, fun a ha cc hcc => ?_⟩
    · -- row scan cell (r, i)
      intro hv
      have hic : i ≠ c := fun he => by rw [he, h0] at hv; omega
      have h1 : (r, i) ≠ (r, c) := by simp [hic]
      have hgi : get (set b r c v) r i = v := by rw [hne r i hi h1]; exact hv
      have := hr' r hr i hi c hc hic (by rw [hgi, hbrc])
      rw [hgi] at this
      omega
    · -- column scan cell (i, c)
      intro hv
      have hir : i ≠ r := fun he => by rw [he, h0] at hv; omega
      have h1 : (i, c) ≠ (r, c) := by simp [hir]
      have hgi : get (set b r c v) i c = v := by rw [hne i c hc h1]; exact hv
      have := hc' c hc i hi r hr hir (by rw [hgi, hbrc])
      rw [hgi] at this
      omega
    · -- box scan cell
      intro hv
      have hi2 : r / 3 * 3 + a < 9 := by omega
      have hj2 : c / 3 * 3 + cc < 9 := by omega
      have hpne : (r / 3 * 3 + a, c / 3 * 3 + cc) ≠ (r, c) := by
        intro he
        rcases Prod.mk.injEq .. ▸ he with ⟨he1, he2⟩
        rw [he1, he2, h0] at hv
        omega
      have hgi : get (set b r c v) (r / 3 * 3 + a) (c / 3 * 3 + cc) = v := by
        rw [hne _ _ hj2 hpne]
        exact hv
      have hbx : sameBox (r / 3 * 3 + a) (c / 3 * 3 + cc) r c := by
        constructor <;> omega
      have := hb' _ hi2 _ hj2 r hr c hc hpne hbx (by rw [hgi, hbrc])
      rw [hgi] at this
      omega

/-! ### The `isValid` scans -/

/-- The shape shared by all of `isValid`'s marks scans: walk a list of cell
values, fail on a non-zero value already marked, mark as you go. -/
def dupScan (m : Nat → Bool) : List Nat → Bool
  | [] => true
  | v :: vs =>
    if v ≠ 0 && m v then false
    else dupScan (if v ≠ 0 then markSet m v else m) vs

theorem markSet_eq_true_iff (m : Nat → Bool) (v x : Nat) :
    markSet m v x = true ↔ x = v ∨ m x = true := by
  unfold markSet
  by_cases h : x = v <;> simp [h]

theorem markSet_eq_false_iff (m : Nat → Bool) (v x : Nat) :
    markSet m v x = false ↔ x ≠ v ∧ m x = false := by
  unfold markSet
  by_cases h : x = v <;> simp [h]

theorem dupScan_eq_true_iff (vs : List Nat) :
    ∀ m : Nat → Bool, dupScan m vs = true ↔
      (∀ v ∈ vs, v ≠ 0 → m v = false) ∧
        List.Pairwise (fun a b => a ≠ 0 → a ≠ b) vs := by
  induction vs with
  | nil => simp [dupScan]
  | cons v vs ih =>
    intro m
    unfold dupScan
    by_cases hv : v = 0
    · subst hv
      rw [if_neg (by simp)]
      rw [if_neg (by simp)]
      rw [ih m]
      constructor
      · rintro ⟨h1, h2⟩
        refine ⟨?_, List.Pairwise.cons (fun q hq hc => absurd rfl hc) h2⟩
        intro w hw hw0
        rcases List.mem_cons.mp hw with rfl | hw'
        · exact absurd rfl hw0
        · exact h1 w hw' hw0
      · rintro ⟨h1, h2⟩
        exact ⟨fun w hw hw0 => h1 w (List.mem_cons_of_mem _ hw) hw0,
          (List.pairwise_cons.mp h2).2⟩
    · by_cases hm : m v = true
      · rw [if_pos (by simp [hv, hm])]
        constructor
        · intro hc
          cases hc
        · rintro ⟨h1, _⟩
          have := h1 v (List.mem_cons_self _ _) hv
          rw [this] at hm
          cases hm
      · have hmf : m v = false := by
          rcases hmv : m v with _ | _
          · rfl
          · exact absurd hmv hm
        rw [if_neg (by simp [hmf]), if_pos hv, ih]
        constructor
        · rintro ⟨h1, h2⟩
          constructor
          · intro w hw hw0
            rcases List.mem_cons.mp hw with rfl | hw'
            · exact hmf
            · exact ((markSet_eq_false_iff m v w).mp (h1 w hw' hw0)).2
          · refine List.Pairwise.cons (fun q hq => ?_) h2
            intro _ hvq
            have hq0 : q ≠ 0 := by omega
            have := (markSet_eq_false_iff m v q).mp (h1 q hq hq0)
            exact this.1 hvq.symm
        · rintro ⟨h1, h2⟩
          rcases List.pairwise_cons.mp h2 with ⟨hhead, htail⟩
          refine ⟨?_, htail⟩
          intro w hw hw0
          rcases hms : markSet m v w with _ | _
          · rfl
          · rw [markSet_eq_true_iff] at hms
            rcases hms with rfl | hmw
            · exact absurd rfl (hhead w hw hv)
            · rw [h1 w (List.mem_cons_of_mem _ hw) hw0] at hmw
              cases hmw

theorem sgLoop_eq_dupScan (b : Board) (sr sc : Nat) (l : List (Nat × Nat)) :
    ∀ m, sgLoop b sr sc l m = dupScan m (l.map fun p => get b (sr + p.1) (sc + p.2)) := by
  induction l with
  | nil => intro m; rfl
  | cons p l ih =>
    intro m
    show (if get b (sr + p.1) (sc + p.2) ≠ 0 && m (get b (sr + p.1) (sc + p.2)) then false
      else sgLoop b sr sc l
        (if get b (sr + p.1) (sc + p.2) ≠ 0 then markSet m (get b (sr + p.1) (sc + p.2))
         else m)) = _
    rw [List.map_cons]
    unfold dupScan
    by_cases hc : (get b (sr + p.1) (sc + p.2) ≠ 0 && m (get b (sr + p.1) (sc + p.2))) = true
    · rw [if_pos hc, if_pos hc]
    · rw [if_neg hc, if_neg hc, ih]

theorem rcLoop_eq_dupScan (b : Board) (i : Nat) (js : List Nat) :
    ∀ row col, rcLoop b i js row col =
      (dupScan row (js.map fun j => get b i j) &&
        dupScan col (js.map fun j => get b j i)) := by
  induction js with
  | nil => intro row col; rfl
  | cons j js ih =>
    intro row col
    show (if get b i j ≠ 0 && row (get b i j) then false
      else
        if get b j i ≠ 0 && col (get b j i) then false
        else rcLoop b i js (if get b i j ≠ 0 then markSet row (get b i j) else row)
          (if get b j i ≠ 0 then markSet col (get b j i) else col)) = _
    rw [List.map_cons, List.map_cons]
    unfold dupScan
    by_cases h1 : (get b i j ≠ 0 && row (get b i j)) = true
    · rw [if_pos h1, if_pos h1, Bool.false_and]
    · rw [if_neg h1, if_neg h1]
      by_cases h2 : (get b j i ≠ 0 && col (get b j i)) = true
      · rw [if_pos h2, if_pos h2, Bool.and_false]
      · rw [if_neg h2, if_neg h2, ih]

theorem noMarks_false (v : Nat) : noMarks v = false := rfl

/-- A scan from fresh marks succeeds exactly when the values are pairwise
distinct where non-zero. -/
theorem dupScan_noMarks (vs : List Nat) :
    dupScan noMarks vs = true ↔ List.Pairwise (fun a b => a ≠ 0 → a ≠ b) vs := by
  rw [dupScan_eq_true_iff]
  constructor
  · exact fun h => h.2
  · exact fun h => ⟨fun v _ _ => rfl, h⟩

/-- Indexed reading of pairwise distinctness over a mapped `range 9`. -/
theorem pairwise_range9 (f : Nat → Nat) :
    List.Pairwise (fun a b => a ≠ 0 → a ≠ b) ((List.range 9).map f) ↔
      ∀ j₁ < 9, ∀ j₂ < 9, j₁ ≠ j₂ → f j₁ = f j₂ → f j₁ = 0 := by
  rw [List.pairwise_map]
  rw [List.pairwise_iff_getElem]
  simp only [List.getElem_range, List.length_range]
  constructor
  · intro h j₁ hj₁ j₂ hj₂ hne heq
    by_contra h0
    rcases Nat.lt_or_ge j₁ j₂ with hlt | hge
    · exact h j₁ j₂ hj₁ hj₂ hlt h0 heq
    · have hlt2 : j₂ < j₁ := by omega
      have hf2 : f j₂ ≠ 0 := by rw [← heq]; exact h0
      exact h j₂ j₁ hj₂ hj₁ hlt2 hf2 heq.symm
  · intro h j₁ j₂ hj₁ hj₂ hlt h0 heq
    exact h0 (h j₁ hj₁ j₂ hj₂ (by omega) heq)

theorem boxIdx_eq : boxIdx = (List.range 9).map fun k => (k / 3, k % 3) := by decide

/-- One subgrid check, read through cell offsets `k = 3 * rowOffset + colOffset`. -/
theorem isValidSubgrid_iff (b : Board) (sr sc : Nat) :
    isValidSubgrid b sr sc = true ↔
      ∀ k₁ < 9, ∀ k₂ < 9, k₁ ≠ k₂ →
        get b (sr + k₁ / 3) (sc + k₁ % 3) = get b (sr + k₂ / 3) (sc + k₂ % 3) →
        get b (sr + k₁ / 3) (sc + k₁ % 3) = 0 := by
  show sgLoop b sr sc boxIdx noMarks = true ↔ _
  rw [sgLoop_eq_dupScan, boxIdx_eq, List.map_map, dupScan_noMarks]
  have he : ((fun p : Nat × Nat => get b (sr + p.1) (sc + p.2)) ∘ fun k => (k / 3, k % 3)) =
      fun k => get b (sr + k / 3) (sc + k % 3) := rfl
  rw [he, pairwise_range9]

theorem mem_three (x : Nat) : x ∈ ([0, 3, 6] : List Nat) ↔ x = 0 ∨ x = 3 ∨ x = 6 := by
  simp

/-- `isValid` is exactly consistency of the grid. -/
theorem isValid_eq_true_iff (b : Board) : isValid b = true ↔ Consistent b := by
  unfold isValid
  rw [Bool.and_eq_true, List.all_eq_true]
  simp only [List.all_eq_true]
  constructor
  · rintro ⟨h1, h2⟩
    refine ⟨?_, ?_, ?_⟩
    · intro i hi j₁ hj₁ j₂ hj₂ hne heq
      have hh := h1 i (List.mem_range.mpr hi)
      rw [rcLoop_eq_dupScan, Bool.and_eq_true, dupScan_noMarks, dupScan_noMarks] at hh
      exact (pairwise_range9 fun j => get b i j).mp hh.1 j₁ hj₁ j₂ hj₂ hne heq
    · intro j hj i₁ hi₁ i₂ hi₂ hne heq
      have hh := h1 j (List.mem_range.mpr hj)
      rw [rcLoop_eq_dupScan, Bool.and_eq_true, dupScan_noMarks, dupScan_noMarks] at hh
      exact (pairwise_range9 fun x => get b x j).mp hh.2 i₁ hi₁ i₂ hi₂ hne heq
    · intro i₁ hi₁ j₁ hj₁ i₂ hi₂ j₂ hj₂ hpne hbx heq
      rcases hbx with ⟨hbi, hbj⟩
      have hnand : ¬ (i₁ = i₂ ∧ j₁ = j₂) := by
        rintro ⟨rfl, rfl⟩
        exact hpne rfl
      have hsr : i₁ / 3 * 3 ∈ ([0, 3, 6] : List Nat) := by
        rw [mem_three]
        omega
      have hsc : j₁ / 3 * 3 ∈ ([0, 3, 6] : List Nat) := by
        rw [mem_three]
        omega
      have hh := (isValidSubgrid_iff b (i₁ / 3 * 3) (j₁ / 3 * 3)).mp (h2 _ hsr _ hsc)
      have hk := hh (i₁ % 3 * 3 + j₁ % 3) (by omega) (i₂ % 3 * 3 + j₂ % 3) (by omega)
        (by omega)
      have e1 : i₁ / 3 * 3 + (i₁ % 3 * 3 + j₁ % 3) / 3 = i₁ := by omega
      have e2 : j₁ / 3 * 3 + (i₁ % 3 * 3 + j₁ % 3) % 3 = j₁ := by omega
      have e3 : i₁ / 3 * 3 + (i₂ % 3 * 3 + j₂ % 3) / 3 = i₂ := by omega
      have e4 : j₁ / 3 * 3 + (i₂ % 3 * 3 + j₂ % 3) % 3 = j₂ := by omega
      rw [e1, e2, e3, e4] at hk
      exact hk heq
  · rintro ⟨hrOK, hcOK, hbOK⟩
    constructor
    · intro i hi
      rw [rcLoop_eq_dupScan, Bool.and_eq_true, dupScan_noMarks, dupScan_noMarks]
      have hi9 := List.mem_range.mp hi
      exact ⟨(pairwise_range9 fun j => get b i j).mpr (hrOK i hi9),
        (pairwise_range9 fun x => get b x i).mpr (hcOK i hi9)⟩
    · intro sr hsr sc hsc
      rw [isValidSubgrid_iff]
      intro k₁ hk₁ k₂ hk₂ hne heq
      have hsr3 := (mem_three sr).mp hsr
      have hsc3 := (mem_three sc).mp hsc
      have hb1 : sr + k₁ / 3 < 9 := by omega
      have hb2 : sc + k₁ % 3 < 9 := by omega
      have hb3 : sr + k₂ / 3 < 9 := by omega
      have hb4 : sc + k₂ % 3 < 9 := by omega
      have hpne : (sr + k₁ / 3, sc + k₁ % 3) ≠ (sr + k₂ / 3, sc + k₂ % 3) :=
        pair_ne _ _ _ _ (by omega)
      have hbx : sameBox (sr + k₁ / 3) (sc + k₁ % 3) (sr + k₂ / 3) (sc + k₂ % 3) := by
        constructor <;> omega
      exact hbOK _ hb1 _ hb2 _ hb3 _ hb4 hpne hbx heq

/-- `isValid` returns false exactly on a duplicated non-zero digit. -/
theorem isValid_eq_false_iff (b : Board) : isValid b = false ↔ HasDup b := by
  rw [hasDup_iff_not_consistent, ← isValid_eq_true_iff]
  rcases h : isValid b with _ | _ <;> simp

/-! ### Solver state lemmas -/

/-- One iteration of the candidate loop when the placement is safe:
place, recurse, reset. -/
def placeStep (rec : Nat → SState → SState) (limit row col num : Nat) (s : SState) : SState :=
  let s2 := rec limit { s with board := set s.board row col num }
  { s2 with board := set s2.board row col 0 }

theorem solveLoop_cons_step (rec : Nat → SState → SState) (limit row col num : Nat)
    (nums : List Nat) (s : SState) :
    solveLoop rec limit row col (num :: nums) s =
      if isSafe s.board row col num = true then
        solveLoop rec limit row col nums (placeStep rec limit row col num s)
      else solveLoop rec limit row col nums s := by
  rw [solveLoop_cons_ite]
  rfl

theorem placeStep_board (rec : Nat → SState → SState) (limit row col num : Nat)
    (s : SState)
    (hrec : (rec limit { s with board := set s.board row col num }).board =
      set s.board row col num)
    (hnum : num < 10) (h0 : get s.board row col = 0) :
    (placeStep rec limit row col num s).board = s.board := by
  show set (rec limit { s with board := set s.board row col num }).board row col 0 = s.board
  rw [hrec]
  exact set_set_restore s.board row col num hnum h0

theorem placeStep_solutions (rec : Nat → SState → SState) (limit row col num : Nat)
    (s : SState) :
    (placeStep rec limit row col num s).solutions =
      (rec limit { s with board := set s.board row col num }).solutions := rfl

theorem placeStep_solution (rec : Nat → SState → SState) (limit row col num : Nat)
    (s : SState) :
    (placeStep rec limit row col num s).solution =
      (rec limit { s with board := set s.board row col num }).solution := rfl

theorem copySolution_board (s : SState) : (copySolution s).board = s.board := rfl

theorem copySolution_solutions (s : SState) : (copySolution s).solutions = s.solutions := rfl

theorem copySolution_solution (s : SState) : (copySolution s).solution = s.board := rfl

theorem nums9_lt_ten : ∀ v ∈ nums9, v < 10 := by decide

theorem nums9_range : ∀ v ∈ nums9, 1 ≤ v ∧ v ≤ 9 := by decide

/-- The loop leaves the working grid as it found it, provided the
continuation does. -/
theorem solveLoop_board (rec : Nat → SState → SState) (limit row col : Nat)
    (hrec : ∀ l s, (rec l s).board = s.board) :
    ∀ nums : List Nat, (∀ v ∈ nums, v < 10) →
      ∀ s : SState, get s.board row col = 0 →
        (solveLoop rec limit row col nums s).board = s.board := by
  intro nums
  induction nums with
  | nil =>
    intro _ s _
    rw [solveLoop_nil]
  | cons num nums ih =>
    intro hv s h0
    rw [solveLoop_cons_step]
    by_cases hs : isSafe s.board row col num = true
    · rw [if_pos hs]
      have hb3 : (placeStep rec limit row col num s).board = s.board :=
        placeStep_board rec limit row col num s (hrec limit _)
          (hv num (List.mem_cons_self _ _)) h0
      rw [ih (fun v hv' => hv v (List.mem_cons_of_mem _ hv')) _ (by rw [hb3]; exact h0), hb3]
    · rw [if_neg hs]
      exact ih (fun v hv' => hv v (List.mem_cons_of_mem _ hv')) s h0

/-- `solve` restores the working grid on return (C6 backbone). -/
theorem solveF_board (fuel : Nat) : ∀ limit s, (solveF fuel limit s).board = s.board := by
  induction fuel with
  | zero =>
    intro l s
    rw [solveF_zero]
  | succ fuel ih =>
    intro l s
    rw [solveF_succ_ite]
    by_cases hle : l ≤ s.solutions
    · rw [if_pos hle]
    · rw [if_neg hle]
      rcases hfe : findEmpty s.board with _ | p
      · by_cases h1 : s.solutions + 1 = 1
        · show (if s.solutions + 1 = 1 then copySolution { s with solutions := s.solutions + 1 }
            else { s with solutions := s.solutions + 1 }).board = s.board
          rw [if_pos h1, copySolution_board]
        · show (if s.solutions + 1 = 1 then copySolution { s with solutions := s.solutions + 1 }
            else { s with solutions := s.solutions + 1 }).board = s.board
          rw [if_neg h1]
      · rcases findEmpty_some s.board p hfe with ⟨hp1, hp2, hp0⟩
        exact solveLoop_board (solveF fuel) l p.1 p.2 ih nums9 nums9_lt_ten s hp0

/-- The loop never decreases the counter, provided the continuation does not. -/
theorem solveLoop_mono (rec : Nat → SState → SState) (limit row col : Nat)
    (hrec : ∀ l s, s.solutions ≤ (rec l s).solutions) :
    ∀ (nums : List Nat) (s : SState),
      s.solutions ≤ (solveLoop rec limit row col nums s).solutions := by
  intro nums
  induction nums with
  | nil =>
    intro s
    rw [solveLoop_nil]
  | cons num nums ih =>
    intro s
    rw [solveLoop_cons_step]
    by_cases hs : isSafe s.board row col num = true
    · rw [if_pos hs]
      calc s.solutions ≤ (rec limit { s with board := set s.board row col num }).solutions :=
        hrec limit { s with board := set s.board row col num }
      _ = (placeStep rec limit row col num s).solutions := (placeStep_solutions ..).symm
      _ ≤ _ := ih _
    · rw [if_neg hs]
      exact ih s

/-- The counter never decreases. -/
theorem solveF_mono (fuel : Nat) :
    ∀ limit s, s.solutions ≤ (solveF fuel limit s).solutions := by
  induction fuel with
  | zero =>
    intro l s
    rw [solveF_zero]
  | succ fuel ih =>
    intro l s
    rw [solveF_succ_ite]
    by_cases hle : l ≤ s.solutions
    · rw [if_pos hle]
    · rw [if_neg hle]
      rcases hfe : findEmpty s.board with _ | p
      · by_cases h1 : s.solutions + 1 = 1
        · show s.solutions ≤ (if s.solutions + 1 = 1 then
            copySolution { s with solutions := s.solutions + 1 }
            else { s with solutions := s.solutions + 1 }).solutions
          rw [if_pos h1, copySolution_solutions]
          exact Nat.le_succ _
        · show s.solutions ≤ (if s.solutions + 1 = 1 then
            copySolution { s with solutions := s.solutions + 1 }
            else { s with solutions := s.solutions + 1 }).solutions
          rw [if_neg h1]
          exact Nat.le_succ _
      · exact solveLoop_mono (solveF fuel) l p.1 p.2 ih nums9 s

/-- The loop keeps the counter at or below the limit. -/
theorem solveLoop_le (rec : Nat → SState → SState) (limit row col : Nat)
    (hrec : ∀ s : SState, s.solutions ≤ limit → (rec limit s).solutions ≤ limit) :
    ∀ (nums : List Nat) (s : SState), s.solutions ≤ limit →
      (solveLoop rec limit row col nums s).solutions ≤ limit := by
  intro nums
  induction nums with
  | nil =>
    intro s hs
    rw [solveLoop_nil]
    exact hs
  | cons num nums ih =>
    intro s hs
    rw [solveLoop_cons_step]
    by_cases hsafe : isSafe s.board row col num = true
    · rw [if_pos hsafe]
      apply ih
      rw [placeStep_solutions]
      exact hrec _ hs
    · rw [if_neg hsafe]
      exact ih s hs

/-- Entered at or below the limit, the counter stays at or below it (C5 backbone). -/
theorem solveF_le (fuel : Nat) :
    ∀ limit s, s.solutions ≤ limit → (solveF fuel limit s).solutions ≤ limit := by
  induction fuel with
  | zero =>
    intro l s hs
    rw [solveF_zero]
    exact hs
  | succ fuel ih =>
    intro l s hs
    rw [solveF_succ_ite]
    by_cases hle : l ≤ s.solutions
    · rw [if_pos hle]
      exact hs
    · rw [if_neg hle]
      rcases hfe : findEmpty s.board with _ | p
      · by_cases h1 : s.solutions + 1 = 1
        · show (if s.solutions + 1 = 1 then copySolution { s with solutions := s.solutions + 1 }
            else { s with solutions := s.solutions + 1 }).solutions ≤ l
          rw [if_pos h1, copySolution_solutions]
          show s.solutions + 1 ≤ l
          omega
        · show (if s.solutions + 1 = 1 then copySolution { s with solutions := s.solutions + 1 }
            else { s with solutions := s.solutions + 1 }).solutions ≤ l
          rw [if_neg h1]
          show s.solutions + 1 ≤ l
          omega
      · exact solveLoop_le (solveF fuel) l p.1 p.2 (fun s' => ih l s') nums9 s hs

/-- Once the counter has reached the limit, the call is a no-op. -/
theorem solveF_stop (fuel limit : Nat) (s : SState) (h : limit ≤ s.solutions) :
    solveF fuel limit s = s := by
  cases fuel with
  | zero => rw [solveF_zero]
  | succ fuel => rw [solveF_succ_ite, if_pos h]

/-- The captured solution is never overwritten once the counter is positive:
loop version. -/
theorem solveLoop_stable (rec : Nat → SState → SState) (limit row col : Nat)
    (hmono : ∀ l s, s.solutions ≤ (rec l s).solutions)
    (hstab : ∀ s : SState, 1 ≤ s.solutions → (rec limit s).solution = s.solution) :
    ∀ (nums : List Nat) (s : SState), 1 ≤ s.solutions →
      (solveLoop rec limit row col nums s).solution = s.solution := by
  intro nums
  induction nums with
  | nil =>
    intro s hs
    rw [solveLoop_nil]
  | cons num nums ih =>
    intro s hs
    rw [solveLoop_cons_step]
    by_cases hsafe : isSafe s.board row col num = true
    · rw [if_pos hsafe]
      have hA : (rec limit { s with board := set s.board row col num }).solution =
          s.solution := hstab { s with board := set s.board row col num } hs
      have hA2 : 1 ≤ (placeStep rec limit row col num s).solutions := by
        rw [placeStep_solutions]
        calc (1 : Nat) ≤ s.solutions := hs
        _ ≤ _ := hmono limit { s with board := set s.board row col num }
      rw [ih _ hA2, placeStep_solution, hA]
    · rw [if_neg hsafe]
      exact ih s hs

/-- The captured solution is never overwritten once the counter is positive. -/
theorem solveF_stable (fuel : Nat) :
    ∀ limit s, 1 ≤ s.solutions → (solveF fuel limit s).solution = s.solution := by
  induction fuel with
  | zero =>
    intro l s _
    rw [solveF_zero]
  | succ fuel ih =>
    intro l s hs
    rw [solveF_succ_ite]
    by_cases hle : l ≤ s.solutions
    · rw [if_pos hle]
    · rw [if_neg hle]
      rcases hfe : findEmpty s.board with _ | p
      · show (if s.solutions + 1 = 1 then copySolution { s with solutions := s.solutions + 1 }
          else { s with solutions := s.solutions + 1 }).solution = s.solution
        rw [if_neg (by omega)]
      · exact solveLoop_stable (solveF fuel) l p.1 p.2 (solveF_mono fuel)
          (fun s' => ih l s') nums9 s hs

/-- If a call does not change the counter, it does not change the captured
solution either: loop version. -/
theorem solveLoop_stable0 (rec : Nat → SState → SState) (limit row col : Nat)
    (hmono : ∀ l s, s.solutions ≤ (rec l s).solutions)
    (hstab0 : ∀ s : SState, (rec limit s).solutions = s.solutions →
      (rec limit s).solution = s.solution) :
    ∀ (nums : List Nat) (s : SState),
      (solveLoop rec limit row col nums s).solutions = s.solutions →
      (solveLoop rec limit row col nums s).solution = s.solution := by
  intro nums
  induction nums with
  | nil =>
    intro s _
    rw [solveLoop_nil]
  | cons num nums ih =>
    intro s hs
    rw [solveLoop_cons_step] at hs ⊢
    by_cases hsafe : isSafe s.board row col num = true
    · rw [if_pos hsafe] at hs ⊢
      have h1 : s.solutions ≤ (rec limit { s with board := set s.board row col num }).solutions :=
        hmono limit { s with board := set s.board row col num }
      have h2 : (placeStep rec limit row col num s).solutions ≤
          (solveLoop rec limit row col nums (placeStep rec limit row col num s)).solutions :=
        solveLoop_mono rec limit row col hmono nums _
      have h3 : (placeStep rec limit row col num s).solutions =
          (rec limit { s with board := set s.board row col num }).solutions :=
        placeStep_solutions ..
      have hrecsol : (rec limit { s with board := set s.board row col num }).solutions =
          s.solutions := by omega
      have hloopsol : (solveLoop rec limit row col nums
          (placeStep rec limit row col num s)).solutions =
          (placeStep rec limit row col num s).solutions := by omega
      rw [ih _ hloopsol, placeStep_solution, hstab0 _ hrecsol]
    · rw [if_neg hsafe] at hs ⊢
      exact ih s hs

/-- If a call does not change the counter, it does not change the captured
solution either. -/
theorem solveF_stable0 (fuel : Nat) :
    ∀ limit s, (solveF fuel limit s).solutions = s.solutions →
      (solveF fuel limit s).solution = s.solution := by
  induction fuel with
  | zero =>
    intro l s _
    rw [solveF_zero]
  | succ fuel ih =>
    intro l s hs
    rw [solveF_succ_ite] at hs ⊢
    by_cases hle : l ≤ s.solutions
    · rw [if_pos hle]
    · rw [if_neg hle] at hs ⊢
      rcases hfe : findEmpty s.board with _ | p
      · rw [hfe] at hs
        exfalso
        by_cases h1 : s.solutions + 1 = 1
        · rw [show (match (none : Option (Nat × Nat)) with
            | none =>
              let s1 : SState := { s with solutions := s.solutions + 1 }
              if s1.solutions = 1 then copySolution s1 else s1
            | some p => solveLoop (solveF fuel) l p.1 p.2 nums9 s) =
              (if s.solutions + 1 = 1 then copySolution { s with solutions := s.solutions + 1 }
               else { s with solutions := s.solutions + 1 }) from rfl, if_pos h1,
            copySolution_solutions] at hs
          have hs2 : s.solutions + 1 = s.solutions := hs
          omega
        · rw [show (match (none : Option (Nat × Nat)) with
            | none =>
              let s1 : SState := { s with solutions := s.solutions + 1 }
              if s1.solutions = 1 then copySolution s1 else s1
            | some p => solveLoop (solveF fuel) l p.1 p.2 nums9 s) =
              (if s.solutions + 1 = 1 then copySolution { s with solutions := s.solutions + 1 }
               else { s with solutions := s.solutions + 1 }) from rfl, if_neg h1] at hs
          have hs2 : s.solutions + 1 = s.solutions := hs
          omega
      · rw [hfe] at hs
        exact solveLoop_stable0 (solveF fuel) l p.1 p.2 (solveF_mono fuel)
          (fun s' => ih l s') nums9 s hs

/-- Loop version of the counting lemma: the counter accumulates the
cutoff-free solution count, clipped at the limit. -/
theorem solveLoop_count (fuel limit row col : Nat)
    (IH : ∀ s : SState, s.solutions ≤ limit →
      (solveF fuel limit s).solutions = min (s.solutions + countSolsF fuel s.board) limit) :
    ∀ nums : List Nat, (∀ v ∈ nums, v < 10) →
      ∀ s : SState, get s.board row col = 0 → s.solutions ≤ limit →
        (solveLoop (solveF fuel) limit row col nums s).solutions =
          min (s.solutions + countLoop (countSolsF fuel) s.board row col nums) limit := by
  intro nums
  induction nums with
  | nil =>
    intro _ s _ hs
    rw [solveLoop_nil, countLoop_nil]
    omega
  | cons num nums ih =>
    intro hv s h0 hs
    rw [solveLoop_cons_step, countLoop_cons]
    by_cases hsafe : isSafe s.board row col num = true
    · rw [if_pos hsafe, if_pos hsafe]
      have hplace_board : (placeStep (solveF fuel) limit row col num s).board = s.board :=
        placeStep_board _ _ _ _ _ _ (solveF_board fuel limit _)
          (hv num (List.mem_cons_self _ _)) h0
      have hA : (solveF fuel limit { s with board := set s.board row col num }).solutions =
          min (s.solutions + countSolsF fuel (set s.board row col num)) limit :=
        IH { s with board := set s.board row col num } hs
      have hple : (placeStep (solveF fuel) limit row col num s).solutions ≤ limit := by
        rw [placeStep_solutions, hA]
        omega
      have hih := ih (fun v hv' => hv v (List.mem_cons_of_mem _ hv'))
        (placeStep (solveF fuel) limit row col num s)
        (by rw [hplace_board]; exact h0) hple
      rw [hplace_board] at hih
      rw [hih, placeStep_solutions, hA]
      omega
    · rw [if_neg hsafe, if_neg hsafe]
      rw [ih (fun v hv' => hv v (List.mem_cons_of_mem _ hv')) s h0 hs]
      omega

/-- The counting lemma: the final counter is the cutoff-free count of
complete solutions, clipped at the limit. -/
theorem solveF_count (fuel : Nat) :
    ∀ limit s, s.solutions ≤ limit →
      (solveF fuel limit s).solutions = min (s.solutions + countSolsF fuel s.board) limit := by
  induction fuel with
  | zero =>
    intro l s hs
    rw [solveF_zero, countSolsF_zero]
    omega
  | succ fuel ih =>
    intro l s hs
    rw [solveF_succ_ite, countSolsF_succ]
    by_cases hle : l ≤ s.solutions
    · rw [if_pos hle]
      omega
    · rw [if_neg hle]
      rcases hfe : findEmpty s.board with _ | p
      · by_cases h1 : s.solutions + 1 = 1
        · show (if s.solutions + 1 = 1 then copySolution { s with solutions := s.solutions + 1 }
            else { s with solutions := s.solutions + 1 }).solutions = min (s.solutions + 1) l
          rw [if_pos h1, copySolution_solutions]
          show s.solutions + 1 = min (s.solutions + 1) l
          omega
        · show (if s.solutions + 1 = 1 then copySolution { s with solutions := s.solutions + 1 }
            else { s with solutions := s.solutions + 1 }).solutions = min (s.solutions + 1) l
          rw [if_neg h1]
          show s.solutions + 1 = min (s.solutions + 1) l
          omega
      · rcases findEmpty_some s.board p hfe with ⟨hp1, hp2, hp0⟩
        exact solveLoop_count fuel l p.1 p.2 (fun s' hs' => ih l s' hs') nums9 nums9_lt_ten
          s hp0 hs

/-! ### Completions and the captured solution -/

theorem extends_refl (g : Board) : Extends g g := fun _ _ _ _ _ => rfl

/-- A completion of a board with one more cell filled also completes the
original board. -/
theorem extends_of_set (b : Board) (r c v : Nat) (h0 : get b r c = 0) (hv : v < 10)
    (hc : c < 9) (h : Board) (hext : Extends (set b r c v) h) : Extends b h := by
  intro i hi j hj hnz
  have hne : (i, j) ≠ (r, c) := pair_ne _ _ _ _ fun hand => by
    rw [hand.1, hand.2] at hnz
    exact hnz h0
  have hgs : get (set b r c v) i j = get b i j := get_set_ne_cell b r c v i j hv hc hj hne
  have := hext i hi j hj (by rw [hgs]; exact hnz)
  rw [hgs] at this
  exact this

theorem isCompletion_of_set (b : Board) (r c v : Nat) (h0 : get b r c = 0) (hv : v < 10)
    (hc : c < 9) (h : Board) (hcomp : IsCompletion (set b r c v) h) : IsCompletion b h :=
  ⟨hcomp.1, hcomp.2.1, hcomp.2.2.1, extends_of_set b r c v h0 hv hc h hcomp.2.2.2⟩

theorem isCompletion_self (b : Board) (hb : b < 10 ^ 81) (hcons : Consistent b)
    (hfill : Filled b) : IsCompletion b b := ⟨hb, hfill, hcons, extends_refl b⟩

/-- If the loop raises the counter from 0, the captured buffer is a
completion of the entry board: loop version. -/
theorem solveLoop_capture (fuel limit row col : Nat)
    (IH : ∀ s : SState, Consistent s.board → s.board < 10 ^ 81 → s.solutions = 0 →
      1 ≤ (solveF fuel limit s).solutions →
      IsCompletion s.board ((solveF fuel limit s).solution)) :
    ∀ nums : List Nat, (∀ v ∈ nums, 1 ≤ v ∧ v ≤ 9) →
      ∀ s : SState, Consistent s.board → s.board < 10 ^ 81 →
        get s.board row col = 0 → row < 9 → col < 9 → s.solutions = 0 →
        1 ≤ (solveLoop (solveF fuel) limit row col nums s).solutions →
        IsCompletion s.board ((solveLoop (solveF fuel) limit row col nums s).solution) := by
  intro nums
  induction nums with
  | nil =>
    intro _ s _ _ _ _ _ hs0 hge
    rw [solveLoop_nil] at hge
    omega
  | cons num nums ih =>
    intro hv s hcons hb h0 hrow hcol hs0 hge
    have hnum := hv num (List.mem_cons_self _ _)
    rw [solveLoop_cons_step] at hge ⊢
    by_cases hsafe : isSafe s.board row col num = true
    · rw [if_pos hsafe] at hge ⊢
      have htb : (placeStep (solveF fuel) limit row col num s).board = s.board :=
        placeStep_board _ _ _ _ _ _ (solveF_board fuel limit _) (by omega) h0
      by_cases hA : (solveF fuel limit { s with board := set s.board row col num }).solutions = 0
      · have hts0 : (placeStep (solveF fuel) limit row col num s).solutions = 0 := by
          rw [placeStep_solutions]
          exact hA
        have hres := ih (fun v hv' => hv v (List.mem_cons_of_mem _ hv'))
          (placeStep (solveF fuel) limit row col num s)
          (by rw [htb]; exact hcons) (by rw [htb]; exact hb) (by rw [htb]; exact h0)
          hrow hcol hts0 hge
        rw [htb] at hres
        exact hres
      · have hA1 : 1 ≤ (solveF fuel limit { s with board := set s.board row col num }).solutions := by
          omega
        have hcons1 : Consistent (set s.board row col num) :=
          (isSafe_iff_consistent_set s.board row col num hcons h0 hrow hcol
            hnum.1 hnum.2).mp hsafe
        have hb1 : set s.board row col num < 10 ^ 81 :=
          set_lt_pow _ _ _ _ hb hrow hcol (by omega)
        have hcompl : IsCompletion (set s.board row col num)
            ((solveF fuel limit { s with board := set s.board row col num }).solution) :=
          IH { s with board := set s.board row col num } hcons1 hb1 hs0 hA1
        have hcomp2 : IsCompletion s.board
            ((solveF fuel limit { s with board := set s.board row col num }).solution) :=
          isCompletion_of_set s.board row col num h0 (by omega) hcol _ hcompl
        have ht1 : 1 ≤ (placeStep (solveF fuel) limit row col num s).solutions := by
          rw [placeStep_solutions]
          exact hA1
        have hfinal : (solveLoop (solveF fuel) limit row col nums
            (placeStep (solveF fuel) limit row col num s)).solution =
            (placeStep (solveF fuel) limit row col num s).solution :=
          solveLoop_stable (solveF fuel) limit row col (solveF_mono fuel)
            (fun s' => solveF_stable fuel limit s') nums _ ht1
        rw [hfinal, placeStep_solution]
        exact hcomp2
    · rw [if_neg hsafe] at hge ⊢
      exact ih (fun v hv' => hv v (List.mem_cons_of_mem _ hv')) s hcons hb h0 hrow hcol hs0 hge

/-- If the search raises the counter from 0, the captured buffer holds a
completion of the starting board. -/
theorem solveF_capture (fuel : Nat) :
    ∀ limit s, Consistent s.board → s.board < 10 ^ 81 → s.solutions = 0 →
      1 ≤ (solveF fuel limit s).solutions →
      IsCompletion s.board ((solveF fuel limit s).solution) := by
  induction fuel with
  | zero =>
    intro l s _ _ hs0 hge
    rw [solveF_zero] at hge
    omega
  | succ fuel ih =>
    intro l s hcons hb hs0 hge
    rw [solveF_succ_ite] at hge ⊢
    by_cases hle : l ≤ s.solutions
    · rw [if_pos hle] at hge
      omega
    · rw [if_neg hle] at hge ⊢
      rcases hfe : findEmpty s.board with _ | p
      · have h1 : s.solutions + 1 = 1 := by omega
        show IsCompletion s.board
          ((if s.solutions + 1 = 1 then copySolution { s with solutions := s.solutions + 1 }
            else { s with solutions := s.solutions + 1 }).solution)
        rw [if_pos h1, copySolution_solution]
        show IsCompletion s.board s.board
        exact isCompletion_self s.board hb hcons ((findEmpty_none_iff s.board).mp hfe)
      · rw [hfe] at hge
        rcases findEmpty_some s.board p hfe with ⟨hp1, hp2, hp0⟩
        exact solveLoop_capture fuel l p.1 p.2 (ih l) nums9 nums9_range s hcons hb
          hp0 hp1 hp2 hs0 hge

/-! ### Counting empty cells -/

/-- Number of empty cells of the board. -/
def countEmpty (b : Board) : Nat := (cells.filter fun p => get b p.1 p.2 == 0).length

theorem cells_length : cells.length = 81 := by decide

theorem countEmpty_le (b : Board) : countEmpty b ≤ 81 := by
  calc countEmpty b ≤ cells.length := List.length_filter_le _ _
  _ = 81 := cells_length

/-- Filling an empty cell decreases the number of empty cells by one. -/
theorem countEmpty_set (b : Board) (r c v : Nat) (hr : r < 9) (hc : c < 9)
    (h0 : get b r c = 0) (hv1 : 1 ≤ v) (hv9 : v ≤ 9) :
    countEmpty (set b r c v) + 1 = countEmpty b := by
  have hv10 : v < 10 := by omega
  have key : ∀ l : List (Nat × Nat), l.Nodup → (∀ q ∈ l, q.2 < 9) → (r, c) ∈ l →
      (l.filter fun q => get (set b r c v) q.1 q.2 == 0).length + 1 =
        (l.filter fun q => get b q.1 q.2 == 0).length := by
    intro l
    induction l with
    | nil =>
      intro _ _ hmem
      cases hmem
    | cons q qs ih =>
      intro hnd hq hmem
      rcases List.nodup_cons.mp hnd with ⟨hqn, hndqs⟩
      rcases List.mem_cons.mp hmem with heq | hmem'
      · subst heq
        rw [List.filter_cons, List.filter_cons]
        rw [if_neg (by simp [get_set_self b r c v hv10]; omega), if_pos (by simp [h0])]
        simp only [List.length_cons]
        have hfe : qs.filter (fun q => get (set b r c v) q.1 q.2 == 0) =
            qs.filter fun q => get b q.1 q.2 == 0 := by
          apply List.filter_congr
          intro q hqmem
          have hqne : q ≠ (r, c) := fun he => hqn (he ▸ hqmem)
          rw [get_set_ne_cell b r c v q.1 q.2 hv10 hc (hq q (List.mem_cons_of_mem _ hqmem)) (by
            rcases q with ⟨a, d⟩
            exact hqne)]
        rw [hfe]
      · have hqne : q ≠ (r, c) := by
          intro he
          rw [he] at hqn
          exact hqn hmem'
        rw [List.filter_cons, List.filter_cons]
        have hsame : get (set b r c v) q.1 q.2 = get b q.1 q.2 :=
          get_set_ne_cell b r c v q.1 q.2 hv10 hc (hq q (List.mem_cons_self _ _)) (by
            rcases q with ⟨a, d⟩
            exact hqne)
        have hrest := ih hndqs (fun q' hq' => hq q' (List.mem_cons_of_mem _ hq')) hmem'
        by_cases hcond : (get b q.1 q.2 == 0) = true
        · rw [if_pos (by show (get (set b r c v) q.1 q.2 == 0) = true; rw [hsame]; exact hcond),
            if_pos hcond]
          simp only [List.length_cons]
          omega
        · rw [if_neg (by show ¬ (get (set b r c v) q.1 q.2 == 0) = true; rw [hsame]; exact hcond),
            if_neg hcond]
          exact hrest
  exact key cells cells_nodup (fun q hq => ((mem_cells q).mp hq).2)
    ((mem_cells (r, c)).mpr ⟨hr, hc⟩)

theorem mem_nums9 (v : Nat) : v ∈ nums9 ↔ 1 ≤ v ∧ v ≤ 9 := by
  simp [nums9]
  omega

theorem nums9_nodup : nums9.Nodup := by decide

/-! ### Bounds on the candidate-loop count -/

theorem countLoop_le_of_mem (rec : Board → Nat) (b : Board) (row col : Nat)
    (nums : List Nat) (v : Nat) (hmem : v ∈ nums)
    (hsafe : isSafe b row col v = true) :
    rec (set b row col v) ≤ countLoop rec b row col nums := by
  induction nums with
  | nil => cases hmem
  | cons num nums ih =>
    rw [countLoop_cons]
    rcases List.mem_cons.mp hmem with rfl | hmem'
    · rw [if_pos hsafe]
      omega
    · have := ih hmem'
      omega

theorem countLoop_two_of_two_mem (rec : Board → Nat) (b : Board) (row col : Nat)
    (nums : List Nat) (v w : Nat) (hvw : v ≠ w) (hv : v ∈ nums) (hw : w ∈ nums)
    (hsv : isSafe b row col v = true) (hsw : isSafe b row col w = true)
    (h1 : 1 ≤ rec (set b row col v)) (h2 : 1 ≤ rec (set b row col w)) :
    2 ≤ countLoop rec b row col nums := by
  induction nums with
  | nil => cases hv
  | cons num nums ih =>
    rw [countLoop_cons]
    rcases List.mem_cons.mp hv with rfl | hv'
    · have hw' : w ∈ nums := by
        rcases List.mem_cons.mp hw with rfl | hw'
        · exact absurd rfl hvw
        · exact hw'
      have := countLoop_le_of_mem rec b row col nums w hw' hsw
      rw [if_pos hsv]
      omega
    · rcases List.mem_cons.mp hw with rfl | hw'
      · have := countLoop_le_of_mem rec b row col nums v hv' hsv
        rw [if_pos hsw]
        omega
      · have := ih hv' hw'
        omega

theorem countLoop_pos_witness (rec : Board → Nat) (b : Board) (row col : Nat)
    (nums : List Nat) (h : 1 ≤ countLoop rec b row col nums) :
    ∃ v ∈ nums, isSafe b row col v = true ∧ 1 ≤ rec (set b row col v) := by
  induction nums with
  | nil =>
    rw [countLoop_nil] at h
    omega
  | cons num nums ih =>
    rw [countLoop_cons] at h
    by_cases hs : isSafe b row col num = true
    · rw [if_pos hs] at h
      by_cases h1 : 1 ≤ rec (set b row col num)
      · exact ⟨num, List.mem_cons_self _ _, hs, h1⟩
      · have hrest : 1 ≤ countLoop rec b row col nums := by omega
        rcases ih hrest with ⟨v, hv, hsv, h1v⟩
        exact ⟨v, List.mem_cons_of_mem _ hv, hsv, h1v⟩
    · rw [if_neg hs] at h
      rcases ih (by omega) with ⟨v, hv, hsv, h1v⟩
      exact ⟨v, List.mem_cons_of_mem _ hv, hsv, h1v⟩

theorem countLoop_two_witness (rec : Board → Nat) (b : Board) (row col : Nat)
    (nums : List Nat) (hnd : nums.Nodup) (h : 2 ≤ countLoop rec b row col nums) :
    (∃ v ∈ nums, isSafe b row col v = true ∧ 2 ≤ rec (set b row col v)) ∨
      (∃ v ∈ nums, ∃ w ∈ nums, v ≠ w ∧ isSafe b row col v = true ∧
        isSafe b row col w = true ∧ 1 ≤ rec (set b row col v) ∧
        1 ≤ rec (set b row col w)) := by
  induction nums with
  | nil =>
    rw [countLoop_nil] at h
    omega
  | cons num nums ih =>
    rcases List.nodup_cons.mp hnd with ⟨hn, hndt⟩
    rw [countLoop_cons] at h
    by_cases hs : isSafe b row col num = true
    · rw [if_pos hs] at h
      by_cases h2 : 2 ≤ rec (set b row col num)
      · exact Or.inl ⟨num, List.mem_cons_self _ _, hs, h2⟩
      · by_cases h1 : 1 ≤ rec (set b row col num)
        · have hrest : 1 ≤ countLoop rec b row col nums := by omega
          rcases countLoop_pos_witness rec b row col nums hrest with ⟨w, hw, hsw, h1w⟩
          have hnw : num ≠ w := fun he => hn (he ▸ hw)
          exact Or.inr ⟨num, List.mem_cons_self _ _, w, List.mem_cons_of_mem _ hw,
            hnw, hs, hsw, h1, h1w⟩
        · have hrest : 2 ≤ countLoop rec b row col nums := by omega
          rcases ih hndt hrest with ⟨v, hv, hsv, h2v⟩ | ⟨v, hv, w, hw, hvw, hsv, hsw, h1v, h1w⟩
          · exact Or.inl ⟨v, List.mem_cons_of_mem _ hv, hsv, h2v⟩
          · exact Or.inr ⟨v, List.mem_cons_of_mem _ hv, w, List.mem_cons_of_mem _ hw,
              hvw, hsv, hsw, h1v, h1w⟩
    · rw [if_neg hs] at h
      rcases ih hndt (by omega) with ⟨v, hv, hsv, h2v⟩ | ⟨v, hv, w, hw, hvw, hsv, hsw, h1v, h1w⟩
      · exact Or.inl ⟨v, List.mem_cons_of_mem _ hv, hsv, h2v⟩
      · exact Or.inr ⟨v, List.mem_cons_of_mem _ hv, w, List.mem_cons_of_mem _ hw,
          hvw, hsv, hsw, h1v, h1w⟩

/-- The value a completion assigns to the first empty cell is a safe
placement. -/
theorem isSafe_of_completion (b h : Board) (r c : Nat) (hcomp : IsCompletion b h)
    (hr : r < 9) (hc : c < 9) (h0 : get b r c = 0) :
    isSafe b r c (get h r c) = true := by
  rcases hcomp with ⟨hbnd, hfill, ⟨hrOK, hcOK, hbOK⟩, hext⟩
  have hv0 : get h r c ≠ 0 := hfill r hr c hc
  rw [isSafe_iff]
  refine ⟨fun i hi => ⟨?_, ?_⟩, fun a ha cc hcc => ?_⟩
  · intro hbv
    have hnz : get b r i ≠ 0 := by rw [hbv]; exact hv0
    have hhv : get h r i = get h r c := by rw [hext r hr i hi hnz]; exact hbv
    have hic : i ≠ c := by
      intro he
      rw [he, h0] at hbv
      exact hv0 hbv.symm
    have hz := hrOK r hr i hi c hc hic hhv
    rw [hhv] at hz
    exact hv0 hz
  · intro hbv
    have hnz : get b i c ≠ 0 := by rw [hbv]; exact hv0
    have hhv : get h i c = get h r c := by rw [hext i hi c hc hnz]; exact hbv
    have hir : i ≠ r := by
      intro he
      rw [he, h0] at hbv
      exact hv0 hbv.symm
    have hz := hcOK c hc i hi r hr hir hhv
    rw [hhv] at hz
    exact hv0 hz
  · intro hbv
    have hi2 : r / 3 * 3 + a < 9 := by omega
    have hj2 : c / 3 * 3 + cc < 9 := by omega
    have hnz : get b (r / 3 * 3 + a) (c / 3 * 3 + cc) ≠ 0 := by rw [hbv]; exact hv0
    have hhv : get h (r / 3 * 3 + a) (c / 3 * 3 + cc) = get h r c := by
      rw [hext _ hi2 _ hj2 hnz]
      exact hbv
    have hpne : (r / 3 * 3 + a, c / 3 * 3 + cc) ≠ (r, c) := by
      apply pair_ne
      rintro ⟨he1, he2⟩
      rw [he1, he2, h0] at hbv
      exact hv0 hbv.symm
    have hbx : sameBox (r / 3 * 3 + a) (c / 3 * 3 + cc) r c := by
      constructor <;> omega
    have hz := hbOK _ hi2 _ hj2 r hr c hc hpne hbx hhv
    rw [hhv] at hz
    exact hv0 hz

/-- Fixing the first empty cell at the completion's value keeps the
completion. -/
theorem isCompletion_set_value (b h : Board) (r c : Nat) (hcomp : IsCompletion b h)
    (hc : c < 9) (h0 : get b r c = 0) :
    IsCompletion (set b r c (get h r c)) h := by
  rcases hcomp with ⟨hbnd, hfill, hcons, hext⟩
  have hv10 : get h r c < 10 := get_lt_ten h r c
  refine ⟨hbnd, hfill, hcons, ?_⟩
  intro i hi j hj hnz
  by_cases hij : i = r ∧ j = c
  · obtain ⟨rfl, rfl⟩ := hij
    rw [get_set_self b i j _ hv10]
  · have hne := pair_ne i j r c hij
    rw [get_set_ne_cell b r c _ i j hv10 hc hj hne] at hnz ⊢
    exact hext i hi j hj hnz

/-- A completion forces at least one counted solution (enough fuel given). -/
theorem countSolsF_pos (fuel : Nat) :
    ∀ b h, IsCompletion b h → countEmpty b < fuel → 1 ≤ countSolsF fuel b := by
  induction fuel with
  | zero =>
    intro b h _ hce
    omega
  | succ fuel ih =>
    intro b h hcomp hce
    rw [countSolsF_succ]
    rcases hfe : findEmpty b with _ | p
    · exact Nat.le_refl 1
    · rcases findEmpty_some b p hfe with ⟨hp1, hp2, hp0⟩
      have hv0 : get h p.1 p.2 ≠ 0 := hcomp.2.1 p.1 hp1 p.2 hp2
      have hv10 : get h p.1 p.2 < 10 := get_lt_ten h p.1 p.2
      have hmem : get h p.1 p.2 ∈ nums9 := (mem_nums9 _).mpr ⟨by omega, by omega⟩
      have hsafe : isSafe b p.1 p.2 (get h p.1 p.2) = true :=
        isSafe_of_completion b h p.1 p.2 hcomp hp1 hp2 hp0
      have hcomp2 := isCompletion_set_value b h p.1 p.2 hcomp hp2 hp0
      have hce2 : countEmpty (set b p.1 p.2 (get h p.1 p.2)) < fuel := by
        have := countEmpty_set b p.1 p.2 (get h p.1 p.2) hp1 hp2 hp0 (by omega) (by omega)
        omega
      show 1 ≤ countLoop (countSolsF fuel) b p.1 p.2 nums9
      exact Nat.le_trans (ih _ h hcomp2 hce2)
        (countLoop_le_of_mem _ _ _ _ nums9 _ hmem hsafe)

/-- Two distinct completions force at least two counted solutions. -/
theorem countSolsF_two (fuel : Nat) :
    ∀ b h₁ h₂, IsCompletion b h₁ → IsCompletion b h₂ → h₁ ≠ h₂ →
      countEmpty b < fuel → 2 ≤ countSolsF fuel b := by
  induction fuel with
  | zero =>
    intro b _ _ _ _ _ hce
    omega
  | succ fuel ih =>
    intro b h₁ h₂ hc1 hc2 hne hce
    rw [countSolsF_succ]
    rcases hfe : findEmpty b with _ | p
    · exfalso
      have hfill := (findEmpty_none_iff b).mp hfe
      apply hne
      apply boardExt h₁ h₂ hc1.1 hc2.1
      intro i j hi hj
      have hnz := hfill i hi j hj
      rw [hc1.2.2.2 i hi j hj hnz, hc2.2.2.2 i hi j hj hnz]
    · rcases findEmpty_some b p hfe with ⟨hp1, hp2, hp0⟩
      show 2 ≤ countLoop (countSolsF fuel) b p.1 p.2 nums9
      have hv1ne : get h₁ p.1 p.2 ≠ 0 := hc1.2.1 p.1 hp1 p.2 hp2
      have hv2ne : get h₂ p.1 p.2 ≠ 0 := hc2.2.1 p.1 hp1 p.2 hp2
      have hv1lt : get h₁ p.1 p.2 < 10 := get_lt_ten h₁ p.1 p.2
      have hv2lt : get h₂ p.1 p.2 < 10 := get_lt_ten h₂ p.1 p.2
      have hmem1 : get h₁ p.1 p.2 ∈ nums9 := (mem_nums9 _).mpr ⟨by omega, by omega⟩
      have hmem2 : get h₂ p.1 p.2 ∈ nums9 := (mem_nums9 _).mpr ⟨by omega, by omega⟩
      have hs1 := isSafe_of_completion b h₁ p.1 p.2 hc1 hp1 hp2 hp0
      have hs2 := isSafe_of_completion b h₂ p.1 p.2 hc2 hp1 hp2 hp0
      have hcomp1 := isCompletion_set_value b h₁ p.1 p.2 hc1 hp2 hp0
      have hcomp2 := isCompletion_set_value b h₂ p.1 p.2 hc2 hp2 hp0
      have hce1 : countEmpty (set b p.1 p.2 (get h₁ p.1 p.2)) < fuel := by
        have := countEmpty_set b p.1 p.2 (get h₁ p.1 p.2) hp1 hp2 hp0 (by omega) (by omega)
        omega
      by_cases hv12 : get h₁ p.1 p.2 = get h₂ p.1 p.2
      · rw [← hv12] at hcomp2
        exact Nat.le_trans (ih _ h₁ h₂ hcomp1 hcomp2 hne hce1)
          (countLoop_le_of_mem _ _ _ _ nums9 _ hmem1 hs1)
      · have hce2 : countEmpty (set b p.1 p.2 (get h₂ p.1 p.2)) < fuel := by
          have := countEmpty_set b p.1 p.2 (get h₂ p.1 p.2) hp1 hp2 hp0 (by omega) (by omega)
          omega
        have h11 : 1 ≤ countSolsF fuel (set b p.1 p.2 (get h₁ p.1 p.2)) :=
          countSolsF_pos fuel _ h₁ hcomp1 hce1
        have h12 : 1 ≤ countSolsF fuel (set b p.1 p.2 (get h₂ p.1 p.2)) :=
          countSolsF_pos fuel _ h₂ hcomp2 hce2
        exact countLoop_two_of_two_mem _ _ _ _ nums9 _ _ hv12 hmem1 hmem2 hs1 hs2 h11 h12

/-- A positive count yields a completion. -/
theorem exists_completion_of_pos (fuel : Nat) :
    ∀ b, Consistent b → b < 10 ^ 81 → 1 ≤ countSolsF fuel b →
      ∃ h, IsCompletion b h := by
  induction fuel with
  | zero =>
    intro b _ _ hpos
    rw [countSolsF_zero] at hpos
    omega
  | succ fuel ih =>
    intro b hcons hb hpos
    rw [countSolsF_succ] at hpos
    rcases hfe : findEmpty b with _ | p
    · exact ⟨b, isCompletion_self b hb hcons ((findEmpty_none_iff b).mp hfe)⟩
    · rw [hfe] at hpos
      rcases findEmpty_some b p hfe with ⟨hp1, hp2, hp0⟩
      have hpos' : 1 ≤ countLoop (countSolsF fuel) b p.1 p.2 nums9 := hpos
      rcases countLoop_pos_witness _ _ _ _ _ hpos' with ⟨v, hvmem, hsafe, h1⟩
      have hv := (mem_nums9 v).mp hvmem
      have hconsv : Consistent (set b p.1 p.2 v) :=
        (isSafe_iff_consistent_set b p.1 p.2 v hcons hp0 hp1 hp2 hv.1 hv.2).mp hsafe
      have hbv : set b p.1 p.2 v < 10 ^ 81 := set_lt_pow _ _ _ _ hb hp1 hp2 (by omega)
      rcases ih _ hconsv hbv h1 with ⟨h, hcomph⟩
      exact ⟨h, isCompletion_of_set b p.1 p.2 v hp0 (by omega) hp2 h hcomph⟩

/-- A count of at least two yields two distinct completions. -/
theorem two_completions_of_two (fuel : Nat) :
    ∀ b, Consistent b → b < 10 ^ 81 → 2 ≤ countSolsF fuel b →
      ∃ h₁ h₂, IsCompletion b h₁ ∧ IsCompletion b h₂ ∧ h₁ ≠ h₂ := by
  induction fuel with
  | zero =>
    intro b _ _ h2
    rw [countSolsF_zero] at h2
    omega
  | succ fuel ih =>
    intro b hcons hb h2
    rw [countSolsF_succ] at h2
    rcases hfe : findEmpty b with _ | p
    · rw [hfe] at h2
      have h2' : (2 : Nat) ≤ 1 := h2
      omega
    · rw [hfe] at h2
      rcases findEmpty_some b p hfe with ⟨hp1, hp2, hp0⟩
      have h2' : 2 ≤ countLoop (countSolsF fuel) b p.1 p.2 nums9 := h2
      rcases countLoop_two_witness _ _ _ _ nums9 nums9_nodup h2' with
        ⟨v, hvmem, hsafe, h2v⟩ | ⟨v, hvmem, w, hwmem, hvw, hsv, hsw, h1v, h1w⟩
      · have hv := (mem_nums9 v).mp hvmem
        have hconsv : Consistent (set b p.1 p.2 v) :=
          (isSafe_iff_consistent_set b p.1 p.2 v hcons hp0 hp1 hp2 hv.1 hv.2).mp hsafe
        have hbv : set b p.1 p.2 v < 10 ^ 81 := set_lt_pow _ _ _ _ hb hp1 hp2 (by omega)
        rcases ih _ hconsv hbv h2v with ⟨h₁, h₂, hch1, hch2, hne⟩
        exact ⟨h₁, h₂, isCompletion_of_set b p.1 p.2 v hp0 (by omega) hp2 h₁ hch1,
          isCompletion_of_set b p.1 p.2 v hp0 (by omega) hp2 h₂ hch2, hne⟩
      · have hv := (mem_nums9 v).mp hvmem
        have hw := (mem_nums9 w).mp hwmem
        have hconsv : Consistent (set b p.1 p.2 v) :=
          (isSafe_iff_consistent_set b p.1 p.2 v hcons hp0 hp1 hp2 hv.1 hv.2).mp hsv
        have hconsw : Consistent (set b p.1 p.2 w) :=
          (isSafe_iff_consistent_set b p.1 p.2 w hcons hp0 hp1 hp2 hw.1 hw.2).mp hsw
        have hbv : set b p.1 p.2 v < 10 ^ 81 := set_lt_pow _ _ _ _ hb hp1 hp2 (by omega)
        have hbw : set b p.1 p.2 w < 10 ^ 81 := set_lt_pow _ _ _ _ hb hp1 hp2 (by omega)
        rcases exists_completion_of_pos fuel _ hconsv hbv h1v with ⟨hv1, hcompv⟩
        rcases exists_completion_of_pos fuel _ hconsw hbw h1w with ⟨hw1, hcompw⟩
        have hgv : get hv1 p.1 p.2 = v := by
          have := hcompv.2.2.2 p.1 hp1 p.2 hp2
            (by rw [get_set_self b p.1 p.2 v (by omega)]; omega)
          rw [get_set_self b p.1 p.2 v (by omega)] at this
          exact this
        have hgw : get hw1 p.1 p.2 = w := by
          have := hcompw.2.2.2 p.1 hp1 p.2 hp2
            (by rw [get_set_self b p.1 p.2 w (by omega)]; omega)
          rw [get_set_self b p.1 p.2 w (by omega)] at this
          exact this
        have hne2 : hv1 ≠ hw1 := by
          intro he
          apply hvw
          rw [← hgv, ← hgw, he]
        exact ⟨hv1, hw1, isCompletion_of_set b p.1 p.2 v hp0 (by omega) hp2 hv1 hcompv,
          isCompletion_of_set b p.1 p.2 w hp0 (by omega) hp2 hw1 hcompw, hne2⟩

/-- The candidate loop only cares about what the recursive call does on
the boards actually reached: one-step congruence for `solveLoop`. -/
theorem solveLoop_congr (rec₁ rec₂ : Nat → SState → SState)
    (hb₂ : ∀ limit s, (rec₂ limit s).board = s.board) (limit row col : Nat) :
    ∀ nums : List Nat, (∀ n ∈ nums, 1 ≤ n ∧ n ≤ 9) →
      ∀ s : SState, get s.board row col = 0 →
        (∀ t : SState, ∀ num, 1 ≤ num → num ≤ 9 →
          t.board = set s.board row col num → rec₁ limit t = rec₂ limit t) →
        solveLoop rec₁ limit row col nums s = solveLoop rec₂ limit row col nums s := by
  intro nums
  induction nums with
  | nil =>
    intro _ s _ _
    rw [solveLoop_nil, solveLoop_nil]
  | cons num rest ih =>
    intro hnums s hs0 hrec
    have hnum := hnums num (List.mem_cons_self _ _)
    have hrest : ∀ n ∈ rest, 1 ≤ n ∧ n ≤ 9 :=
      fun n hn => hnums n (List.mem_cons_of_mem _ hn)
    rw [solveLoop_cons_ite, solveLoop_cons_ite]
    by_cases hsafe : isSafe s.board row col num = true
    · rw [if_pos hsafe, if_pos hsafe]
      have h1 : rec₁ limit { s with board := set s.board row col num } =
          rec₂ limit { s with board := set s.board row col num } :=
        hrec _ num hnum.1 hnum.2 rfl
      have hboard : set (rec₂ limit { s with board := set s.board row col num }).board
          row col 0 = s.board := by
        rw [hb₂ limit { s with board := set s.board row col num }]
        exact set_set_restore s.board row col num (by omega) hs0
      show solveLoop rec₁ limit row col rest
          { rec₁ limit { s with board := set s.board row col num } with
            board := set (rec₁ limit { s with board := set s.board row col num }).board
              row col 0 } =
        solveLoop rec₂ limit row col rest
          { rec₂ limit { s with board := set s.board row col num } with
            board := set (rec₂ limit { s with board := set s.board row col num }).board
              row col 0 }
      rw [h1]
      have hbt : ({ rec₂ limit { s with board := set s.board row col num } with
          board := set (rec₂ limit { s with board := set s.board row col num }).board
            row col 0 } : SState).board = s.board := hboard
      refine ih hrest _ ?_ ?_
      · rw [hbt]
        exact hs0
      · intro t' num' ha hb' ht'
        apply hrec t' num' ha hb'
        rw [ht', hbt]
    · rw [if_neg hsafe, if_neg hsafe]
      exact ih hrest s hs0 hrec

/-- One extra unit of fuel changes nothing once the fuel already exceeds
the number of empty cells. -/
theorem solveF_fuel_succ :
    ∀ fuel limit (s : SState), countEmpty s.board < fuel →
      solveF (fuel + 1) limit s = solveF fuel limit s := by
  intro fuel
  induction fuel with
  | zero =>
    intro limit s h
    exact absurd h (Nat.not_lt_zero _)
  | succ fuel ih =>
    intro limit s hce
    rw [solveF_succ_ite, solveF_succ_ite]
    by_cases hle : limit ≤ s.solutions
    · rw [if_pos hle, if_pos hle]
    · rw [if_neg hle, if_neg hle]
      rcases hfe : findEmpty s.board with _ | p
      · rfl
      · rcases findEmpty_some s.board p hfe with ⟨hp1, hp2, hp0⟩
        apply solveLoop_congr (solveF (fuel + 1)) (solveF fuel) (solveF_board fuel)
          limit p.1 p.2 nums9 (fun n hn => (mem_nums9 n).mp hn) s hp0
        intro t num h1 h9 ht
        apply ih limit t
        have := countEmpty_set s.board p.1 p.2 num hp1 hp2 hp0 h1 h9
        rw [ht]
        omega

/-- Any surplus of fuel changes nothing. -/
theorem solveF_add (d : Nat) :
    ∀ fuel limit (s : SState), countEmpty s.board < fuel →
      solveF (fuel + d) limit s = solveF fuel limit s := by
  induction d with
  | zero =>
    intro fuel limit s _
    rfl
  | succ d ih =>
    intro fuel limit s h
    have h2 : countEmpty s.board < fuel + d := by omega
    rw [show fuel + (d + 1) = (fuel + d) + 1 from rfl,
      solveF_fuel_succ (fuel + d) limit s h2, ih fuel limit s h]

/-- Any two fuel values above the number of empty cells give the same
run: the search is a total function of the state. -/
theorem solveF_fuel_invariant (fuel₁ fuel₂ limit : Nat) (s : SState)
    (h₁ : countEmpty s.board < fuel₁) (h₂ : countEmpty s.board < fuel₂) :
    solveF fuel₁ limit s = solveF fuel₂ limit s := by
  rcases Nat.le_total fuel₁ fuel₂ with h | h
  · obtain ⟨d, rfl⟩ := Nat.le.dest h
    rw [solveF_add d fuel₁ limit s h₁]
  · obtain ⟨d, rfl⟩ := Nat.le.dest h
    rw [solveF_add d fuel₂ limit s h₂]

/-- `solve`'s fuel of 82 covers every board: more fuel never changes the
answer. -/
theorem solveF_eq_solve (fuel limit : Nat) (s : SState)
    (h : countEmpty s.board < fuel) : solveF fuel limit s = solve limit s :=
  solveF_fuel_invariant fuel 82 limit s h
    (by have := countEmpty_le s.board; omega)

/-! ### Each digit exactly once in every filled consistent grid -/

/-- The nine values of row `i`. -/
def rowVals (h : Board) (i : Nat) : List Nat := (List.range 9).map fun j => get h i j

/-- The nine values of column `j`. -/
def colVals (h : Board) (j : Nat) : List Nat := (List.range 9).map fun i => get h i j

/-- The nine values of the `k`-th aligned 3×3 box. -/
def boxVals (h : Board) (k : Nat) : List Nat :=
  boxIdx.map fun p => get h (k / 3 * 3 + p.1) (k % 3 * 3 + p.2)

/-- Every row, column and box contains each of 1..9 exactly once. -/
def EachDigitOnce (h : Board) : Prop :=
  ∀ v, 1 ≤ v → v ≤ 9 →
    (∀ i, i < 9 → (rowVals h i).count v = 1) ∧
    (∀ j, j < 9 → (colVals h j).count v = 1) ∧
    (∀ k, k < 9 → (boxVals h k).count v = 1)

/-- Nine pairwise distinct values drawn from 1..9 contain each of 1..9
exactly once. -/
theorem count_one_of_nine (l : List Nat) (hlen : l.length = 9)
    (hmem : ∀ x ∈ l, x ∈ nums9) (hnd : l.Nodup) :
    ∀ v ∈ nums9, l.count v = 1 := by
  have hsub : l.Subperm nums9 := hnd.subperm hmem
  have hperm : l.Perm nums9 := hsub.perm_of_length_le (by rw [hlen]; decide)
  intro v hv
  rw [hperm.count_eq]
  exact List.count_eq_one_of_mem nums9_nodup hv

/-- A filled consistent grid has each digit exactly once in every row,
column and box. -/
theorem eachDigitOnce_of_filled_consistent (h : Board) (hfill : Filled h)
    (hcons : Consistent h) : EachDigitOnce h := by
  rcases hcons with ⟨hrOK, hcOK, hbOK⟩
  intro v hv1 hv9
  have hvmem : v ∈ nums9 := (mem_nums9 v).mpr ⟨hv1, hv9⟩
  refine ⟨fun i hi => ?_, fun j hj => ?_, fun k hk => ?_⟩
  · apply count_one_of_nine _ (by simp [rowVals]) _ _ v hvmem
    · intro x hx
      rcases List.mem_map.mp hx with ⟨j, hjr, rfl⟩
      have hj := List.mem_range.mp hjr
      have := hfill i hi j hj
      have := get_lt_ten h i j
      exact (mem_nums9 _).mpr ⟨by omega, by omega⟩
    · apply (List.nodup_range 9).map_on
      intro j₁ hj₁ j₂ hj₂ heq
      by_contra hne
      exact hfill i hi j₁ (List.mem_range.mp hj₁)
        (hrOK i hi j₁ (List.mem_range.mp hj₁) j₂ (List.mem_range.mp hj₂) hne heq)
  · apply count_one_of_nine _ (by simp [colVals]) _ _ v hvmem
    · intro x hx
      rcases List.mem_map.mp hx with ⟨i, hir, rfl⟩
      have hi := List.mem_range.mp hir
      have := hfill i hi j hj
      have := get_lt_ten h i j
      exact (mem_nums9 _).mpr ⟨by omega, by omega⟩
    · apply (List.nodup_range 9).map_on
      intro i₁ hi₁ i₂ hi₂ heq
      by_contra hne
      exact hfill i₁ (List.mem_range.mp hi₁) j hj
        (hcOK j hj i₁ (List.mem_range.mp hi₁) i₂ (List.mem_range.mp hi₂) hne heq)
  · apply count_one_of_nine _
      (by rw [show boxVals h k =
            boxIdx.map (fun p => get h (k / 3 * 3 + p.1) (k % 3 * 3 + p.2)) from rfl,
          List.length_map]; rfl) _ _ v hvmem
    · intro x hx
      rcases List.mem_map.mp hx with ⟨p, hpm, rfl⟩
      rcases (mem_boxIdx p).mp hpm with ⟨hp1, hp2⟩
      have hib : k / 3 * 3 + p.1 < 9 := by omega
      have hjb : k % 3 * 3 + p.2 < 9 := by omega
      have := hfill _ hib _ hjb
      have := get_lt_ten h (k / 3 * 3 + p.1) (k % 3 * 3 + p.2)
      exact (mem_nums9 _).mpr ⟨by omega, by omega⟩
    · have hbnd : boxIdx.Nodup := by decide
      apply hbnd.map_on
      intro p hpm q hqm heq
      rcases (mem_boxIdx p).mp hpm with ⟨hp1, hp2⟩
      rcases (mem_boxIdx q).mp hqm with ⟨hq1, hq2⟩
      have hib : k / 3 * 3 + p.1 < 9 := by omega
      have hjb : k % 3 * 3 + p.2 < 9 := by omega
      have hib' : k / 3 * 3 + q.1 < 9 := by omega
      have hjb' : k % 3 * 3 + q.2 < 9 := by omega
      by_contra hne
      have hcne : (k / 3 * 3 + p.1, k % 3 * 3 + p.2) ≠ (k / 3 * 3 + q.1, k % 3 * 3 + q.2) := by
        apply pair_ne
        rintro ⟨h1, h2⟩
        apply hne
        have e1 : p.1 = q.1 := by omega
        have e2 : p.2 = q.2 := by omega
        exact Prod.ext e1 e2
      have hsb : sameBox (k / 3 * 3 + p.1) (k % 3 * 3 + p.2)
          (k / 3 * 3 + q.1) (k % 3 * 3 + q.2) := by
        constructor <;> omega
      exact hfill _ hib _ hjb (hbOK _ hib _ hjb _ hib' _ hjb' hcne hsb heq)

/-! ### Malformed input short-circuits before the search -/

/-- A character other than `'.'` and `'1'`..`'9'` fails to parse. -/
theorem charToCell_eq_none (c : Char) (h : ¬(c = '.' ∨ ('1' ≤ c ∧ c ≤ '9'))) :
    charToCell c = none := by
  rw [charToCell]
  rw [if_neg (fun hc => h (Or.inl hc)), if_neg (fun hc => h (Or.inr hc))]

/-- A row containing a bad character fails to parse. -/
theorem parseRow_eq_none_of_mem (cs : List Char) (c : Char) (hc : c ∈ cs)
    (hbad : charToCell c = none) : parseRow cs = none := by
  induction cs with
  | nil => cases hc
  | cons d rest ih =>
    rw [parseRow]
    rcases List.mem_cons.mp hc with rfl | hc'
    · rw [hbad]
    · rcases hd : charToCell d with _ | v
      · rfl
      · rw [ih hc']

/-- A line of the wrong length fails to parse. -/
theorem parseLine_eq_none_of_badlen (s : String) (h : s.length ≠ 9) :
    parseLine s = none := by
  rw [parseLine, if_neg h]

/-- A line containing a bad character fails to parse. -/
theorem parseLine_eq_none_of_badchar (s : String) (c : Char) (hc : c ∈ s.data)
    (hbad : ¬(c = '.' ∨ ('1' ≤ c ∧ c ≤ '9'))) : parseLine s = none := by
  rw [parseLine]
  by_cases hlen : s.length = 9
  · rw [if_pos hlen]
    exact parseRow_eq_none_of_mem s.data c hc (charToCell_eq_none c hbad)
  · rw [if_neg hlen]

/-- A list of rows with an unparsable member fails to parse. -/
theorem parseRows_eq_none_of_mem (rows : List String) (s : String) (hs : s ∈ rows)
    (hbad : parseLine s = none) : parseRows rows = none := by
  induction rows with
  | nil => cases hs
  | cons r rest ih =>
    rw [parseRows]
    rcases List.mem_cons.mp hs with rfl | hs'
    · rw [hbad]
    · rcases hr : parseLine r with _ | row
      · rfl
      · rw [ih hs']

/-- Malformed argument lists, and well-formed ones whose grid fails the
validity check, print `Error` without ever invoking the solver. -/
theorem mainModel_error_before_solve (args : List String)
    (h : args.length ≠ 10 ∨
         (∃ s ∈ args.drop 1, s.length ≠ 9) ∨
         (∃ s ∈ args.drop 1, ∃ c ∈ s.data, ¬(c = '.' ∨ ('1' ≤ c ∧ c ≤ '9'))) ∨
         (∃ rows, parseRows (args.drop 1) = some rows ∧ isValid (pack rows) = false)) :
    mainModel args = (["Error"], false) := by
  by_cases hlen : args.length ≠ 9 + 1
  · rw [mainModel, if_pos hlen]
  · rcases h with hbad | ⟨s, hs, hbad⟩ | ⟨s, hs, c, hc, hbad⟩ | ⟨rows, hrows, hbad⟩
    · exact absurd (by omega) hlen
    · rw [mainModel, if_neg hlen,
        parseRows_eq_none_of_mem _ s hs (parseLine_eq_none_of_badlen s hbad)]
    · rw [mainModel, if_neg hlen,
        parseRows_eq_none_of_mem _ s hs (parseLine_eq_none_of_badchar s c hc hbad)]
    · rw [mainModel, if_neg hlen, hrows]
      show (if isValid (pack rows) = true then _ else (["Error"], false)) = (["Error"], false)
      rw [if_neg (by rw [hbad]; exact Bool.false_ne_true)]

/-! ### The classic puzzle of the spec, cell by cell

The board of the nine rows `"53..7...."` … `"....8..79"`, packed with
cell `(i, j)` at decimal weight `10 ^ (9 * i + j)`, and the boards met on
the first two levels of the search below it (named after the digits
placed at the successive first empty cells `(0,2)`, `(0,3)`, `(0,5)`,
`(0,6)`). -/

def B0 : Board :=
  970080000500914000082000060600020007100308004300060008060000890000591006000070035

/-- Its unique completion, packed the same way. -/
def SOL : Board :=
  971682543536914782482735169658429317197358624324167958765243891843591276219876435

def cand1 : Board :=
  970080000500914000082000060600020007100308004300060008060000890000591006000070135

def cand2 : Board :=
  970080000500914000082000060600020007100308004300060008060000890000591006000070235

def cand4 : Board :=
  970080000500914000082000060600020007100308004300060008060000890000591006000070435

def c12 : Board :=
  970080000500914000082000060600020007100308004300060008060000890000591006000072135

def c16 : Board :=
  970080000500914000082000060600020007100308004300060008060000890000591006000076135

def c26 : Board :=
  970080000500914000082000060600020007100308004300060008060000890000591006000076235

def c42 : Board :=
  970080000500914000082000060600020007100308004300060008060000890000591006000072435

def c46 : Board :=
  970080000500914000082000060600020007100308004300060008060000890000591006000076435

def c462 : Board :=
  970080000500914000082000060600020007100308004300060008060000890000591006000276435

def c468 : Board :=
  970080000500914000082000060600020007100308004300060008060000890000591006000876435

def c4681 : Board :=
  970080000500914000082000060600020007100308004300060008060000890000591006001876435

def c4689 : Board :=
  970080000500914000082000060600020007100308004300060008060000890000591006009876435

/-- One unfolding of the count at a board whose first empty cell is
`(r, c)`: the sum over the nine candidate digits. -/
theorem countSolsF_expand (fuel : Nat) (b : Board) (r c : Nat)
    (hfe : findEmpty b = some (r, c)) :
    countSolsF (fuel + 1) b =
      (if isSafe b r c 1 = true then countSolsF fuel (set b r c 1) else 0) +
      ((if isSafe b r c 2 = true then countSolsF fuel (set b r c 2) else 0) +
      ((if isSafe b r c 3 = true then countSolsF fuel (set b r c 3) else 0) +
      ((if isSafe b r c 4 = true then countSolsF fuel (set b r c 4) else 0) +
      ((if isSafe b r c 5 = true then countSolsF fuel (set b r c 5) else 0) +
      ((if isSafe b r c 6 = true then countSolsF fuel (set b r c 6) else 0) +
      ((if isSafe b r c 7 = true then countSolsF fuel (set b r c 7) else 0) +
      ((if isSafe b r c 8 = true then countSolsF fuel (set b r c 8) else 0) +
      ((if isSafe b r c 9 = true then countSolsF fuel (set b r c 9) else 0) +
      0)))))))) := by
  rw [countSolsF_succ, hfe]
  show countLoop (countSolsF fuel) b r c nums9 = _
  rw [show nums9 = 1 :: 2 :: 3 :: 4 :: 5 :: 6 :: 7 :: 8 :: 9 :: ([] : List Nat) from rfl]
  rw [countLoop_cons, countLoop_cons, countLoop_cons, countLoop_cons, countLoop_cons,
    countLoop_cons, countLoop_cons, countLoop_cons, countLoop_cons, countLoop_nil]

/-! Kernel evaluation of the five subtrees that contain no branching at
the first two cells, then assembly of the counts bottom-up. -/

theorem countSols_c12 : countSolsF 80 c12 = 0 := by decide!

theorem countSols_c16 : countSolsF 80 c16 = 0 := by decide!

theorem countSols_c26 : countSolsF 80 c26 = 0 := by decide!

theorem countSols_c42 : countSolsF 80 c42 = 0 := by decide!

theorem countSols_c462 : countSolsF 79 c462 = 0 := by decide!

theorem countSols_c4681 : countSolsF 78 c4681 = 0 := by decide!

theorem countSols_c4689 : countSolsF 78 c4689 = 1 := by decide!

theorem countSols_c468 : countSolsF 79 c468 = 1 := by
  rw [show (79 : Nat) = 78 + 1 from rfl,
    countSolsF_expand 78 c468 0 6 (by decide!),
    show set c468 0 6 1 = c4681 from by decide!,
    show set c468 0 6 9 = c4689 from by decide!,
    countSols_c4681, countSols_c4689]
  decide!

theorem countSols_c46 : countSolsF 80 c46 = 1 := by
  rw [show (80 : Nat) = 79 + 1 from rfl,
    countSolsF_expand 79 c46 0 5 (by decide!),
    show set c46 0 5 2 = c462 from by decide!,
    show set c46 0 5 8 = c468 from by decide!,
    countSols_c462, countSols_c468]
  decide!

theorem countSols_cand1 : countSolsF 81 cand1 = 0 := by
  rw [show (81 : Nat) = 80 + 1 from rfl,
    countSolsF_expand 80 cand1 0 3 (by decide!),
    show set cand1 0 3 2 = c12 from by decide!,
    show set cand1 0 3 6 = c16 from by decide!,
    countSols_c12, countSols_c16]
  decide!

theorem countSols_cand2 : countSolsF 81 cand2 = 0 := by
  rw [show (81 : Nat) = 80 + 1 from rfl,
    countSolsF_expand 80 cand2 0 3 (by decide!),
    show set cand2 0 3 6 = c26 from by decide!,
    countSols_c26]
  decide!

theorem countSols_cand4 : countSolsF 81 cand4 = 1 := by
  rw [show (81 : Nat) = 80 + 1 from rfl,
    countSolsF_expand 80 cand4 0 3 (by decide!),
    show set cand4 0 3 2 = c42 from by decide!,
    show set cand4 0 3 6 = c46 from by decide!,
    countSols_c42, countSols_c46]
  decide!

/-- The classic puzzle has exactly one completion reachable by the
search. -/
theorem countSols_B0 : countSolsF 82 B0 = 1 := by
  rw [show (82 : Nat) = 81 + 1 from rfl,
    countSolsF_expand 81 B0 0 2 (by decide!),
    show set B0 0 2 1 = cand1 from by decide!,
    show set B0 0 2 2 = cand2 from by decide!,
    show set B0 0 2 4 = cand4 from by decide!,
    countSols_cand1, countSols_cand2, countSols_cand4]
  decide!

/-! ### End-to-end runs: the classic puzzle and the all-dots input -/

def puzzleRows : List String :=
  ["53..7....", "6..195...", ".98....6.", "8...6...3", "4..8.3..1",
   "7...2...6", ".6....28.", "...419..5", "....8..79"]

def solLines : List String :=
  ["5 3 4 6 7 8 9 1 2", "6 7 2 1 9 5 3 4 8", "1 9 8 3 4 2 5 6 7",
   "8 5 9 7 6 1 4 2 3", "4 2 6 8 5 3 7 9 1", "7 1 3 9 2 4 8 5 6",
   "9 6 1 5 3 7 2 8 4", "2 8 7 4 1 9 6 3 5", "3 4 5 2 8 6 1 7 9"]

def puzzleCells : List (List Nat) :=
  [[5,3,0,0,7,0,0,0,0],[6,0,0,1,9,5,0,0,0],[0,9,8,0,0,0,0,6,0],
   [8,0,0,0,6,0,0,0,3],[4,0,0,8,0,3,0,0,1],[7,0,0,0,2,0,0,0,6],
   [0,6,0,0,0,0,2,8,0],[0,0,0,4,1,9,0,0,5],[0,0,0,0,8,0,0,7,9]]

def dotRows : List String :=
  [".........", ".........", ".........", ".........", ".........",
   ".........", ".........", ".........", "........."]

theorem parse_puzzle : parseRows puzzleRows = some puzzleCells := by decide!

theorem pack_puzzle : pack puzzleCells = B0 := by decide!

theorem isValid_B0 : isValid B0 = true := by decide!

theorem consistent_B0 : Consistent B0 := (isValid_eq_true_iff B0).mp isValid_B0

theorem consistent_SOL : Consistent SOL := (isValid_eq_true_iff SOL).mp (by decide!)

theorem printBoard_SOL : printBoard SOL = solLines := by decide!

theorem isCompletion_B0_SOL : IsCompletion B0 SOL :=
  ⟨by decide!,
   by show ∀ i < 9, ∀ j < 9, get SOL i j ≠ 0; decide!,
   consistent_SOL,
   by show ∀ i < 9, ∀ j < 9, get B0 i j ≠ 0 → get SOL i j = get B0 i j; decide!⟩

/-- Running the solver on the classic puzzle leaves the counter at 1. -/
theorem sols_B0 :
    (solve 2 { board := B0, solutions := 0, solution := 0 }).solutions = 1 := by
  have h := solveF_count 82 2 { board := B0, solutions := 0, solution := 0 } (Nat.zero_le 2)
  rw [show ({ board := B0, solutions := 0, solution := 0 } : SState).solutions = 0 from rfl,
    show ({ board := B0, solutions := 0, solution := 0 } : SState).board = B0 from rfl,
    countSols_B0] at h
  exact h

/-- The captured buffer after the run is exactly the unique completion. -/
theorem sol_buffer :
    (solve 2 { board := B0, solutions := 0, solution := 0 }).solution = SOL := by
  have h1 : 1 ≤ (solve 2 { board := B0, solutions := 0, solution := 0 }).solutions := by
    rw [sols_B0]
  have hcap : IsCompletion B0
      ((solve 2 { board := B0, solutions := 0, solution := 0 }).solution) :=
    solveF_capture 82 2 { board := B0, solutions := 0, solution := 0 }
      consistent_B0 (by decide!) rfl h1
  by_contra hne
  have h2 : 2 ≤ countSolsF 82 B0 :=
    countSolsF_two 82 B0 _ SOL hcap isCompletion_B0_SOL hne
      (by have := countEmpty_le B0; omega)
  rw [countSols_B0] at h2
  omega

/-- The full program run on the classic puzzle prints the nine solution
lines. -/
theorem run_puzzle (prog : String) : run (prog :: puzzleRows) = solLines := by
  rw [run, mainModel, if_neg (fun h => h rfl),
    show (prog :: puzzleRows).drop 1 = puzzleRows from rfl, parse_puzzle]
  show (if isValid (pack puzzleCells) = true then
      (if (solve 2 { board := pack puzzleCells, solutions := 0, solution := 0 }).solutions = 1 then (printBoard (solve 2 { board := pack puzzleCells, solutions := 0, solution := 0 }).solution, true)
        else (["Error"], true))
      else (["Error"], false)).1 = solLines
  rw [pack_puzzle, if_pos isValid_B0, sols_B0, if_pos rfl]
  show printBoard (solve 2 { board := B0, solutions := 0, solution := 0 }).solution = solLines
  rw [sol_buffer, printBoard_SOL]

/-- Kernel evaluation of the search from the all-empty grid: the cutoff
stops it with the counter at 2. -/
theorem sols_empty_board :
    (solve 2 { board := 0, solutions := 0, solution := 0 }).solutions = 2 := by decide!

/-- The parse of nine all-dots rows: eighty-one zeros. -/
def zeroCells : List (List Nat) :=
  [[0,0,0,0,0,0,0,0,0],[0,0,0,0,0,0,0,0,0],[0,0,0,0,0,0,0,0,0],
   [0,0,0,0,0,0,0,0,0],[0,0,0,0,0,0,0,0,0],[0,0,0,0,0,0,0,0,0],
   [0,0,0,0,0,0,0,0,0],[0,0,0,0,0,0,0,0,0],[0,0,0,0,0,0,0,0,0]]

theorem parse_dots : parseRows dotRows = some zeroCells := by decide!

theorem pack_zeros : pack zeroCells = 0 := by decide!

/-- The full program run on nine rows of dots prints `Error`. -/
theorem run_dots (prog : String) : run (prog :: dotRows) = ["Error"] := by
  rw [run, mainModel, if_neg (fun h => h rfl),
    show (prog :: dotRows).drop 1 = dotRows from rfl, parse_dots]
  show (if isValid (pack zeroCells) = true then
      (if (solve 2 { board := pack zeroCells, solutions := 0, solution := 0 }).solutions = 1 then (printBoard (solve 2 { board := pack zeroCells, solutions := 0, solution := 0 }).solution, true)
        else (["Error"], true))
      else (["Error"], false)).1 = ["Error"]
  rw [pack_zeros, if_pos (show isValid 0 = true from by decide!), sols_empty_board,
    if_neg (by omega)]

/-! ### Helper facts for the claim statements -/

/-- The classic puzzle has exactly one completion. -/
theorem unique_completion_B0 : ∃! h, IsCompletion B0 h := by
  refine ⟨SOL, isCompletion_B0_SOL, ?_⟩
  intro y hy
  by_contra hne
  have h2 : 2 ≤ countSolsF 82 B0 :=
    countSolsF_two 82 B0 y SOL hy isCompletion_B0_SOL hne
      (by have := countEmpty_le B0; omega)
  rw [countSols_B0] at h2
  omega

/-! ### The claims -/

/-- **C1**: a starting grid that passes `isValid` and has exactly one
completion is accepted: `solve` with counter 0 and limit 2 ends with the
counter at 1, and the captured buffer is a filled, consistent grid with
each of 1..9 exactly once in every row, column and box, agreeing with the
start on every non-zero cell. -/
theorem C1_unique_completion_accepted (b : Board) (hb : b < 10 ^ 81)
    (hvalid : isValid b = true) (huniq : ∃! h, IsCompletion b h) :
    (solve 2 { board := b, solutions := 0, solution := 0 }).solutions = 1 ∧
    IsCompletion b (solve 2 { board := b, solutions := 0, solution := 0 }).solution ∧
    EachDigitOnce (solve 2 { board := b, solutions := 0, solution := 0 }).solution := by
  obtain ⟨h0, hcomp0, huniq'⟩ := huniq
  have hcons : Consistent b := (isValid_eq_true_iff b).mp hvalid
  have hce : countEmpty b < 82 := by have := countEmpty_le b; omega
  have hpos : 1 ≤ countSolsF 82 b := countSolsF_pos 82 b h0 hcomp0 hce
  have hlt : countSolsF 82 b < 2 := by
    by_contra hge
    push_neg at hge
    rcases two_completions_of_two 82 b hcons hb hge with ⟨h₁, h₂, hc1, hc2, hne⟩
    exact hne ((huniq' h₁ hc1).trans (huniq' h₂ hc2).symm)
  have hcount := solveF_count 82 2 { board := b, solutions := 0, solution := 0 } (Nat.zero_le 2)
  rw [show ({ board := b, solutions := 0, solution := 0 } : SState).solutions = 0 from rfl,
    show ({ board := b, solutions := 0, solution := 0 } : SState).board = b from rfl,
    show countSolsF 82 b = 1 from by omega] at hcount
  have hsols : (solve 2 { board := b, solutions := 0, solution := 0 }).solutions = 1 := hcount
  have h1le : 1 ≤ (solve 2 { board := b, solutions := 0, solution := 0 }).solutions := by
    rw [hsols]
  have hcap : IsCompletion b ((solve 2 { board := b, solutions := 0, solution := 0 }).solution) :=
    solveF_capture 82 2 { board := b, solutions := 0, solution := 0 } hcons hb rfl h1le
  exact ⟨hsols, hcap, eachDigitOnce_of_filled_consistent _ hcap.2.1 hcap.2.2.1⟩

theorem C1_witness :
    (solve 2 { board := B0, solutions := 0, solution := 0 }).solutions = 1 ∧
    IsCompletion B0 (solve 2 { board := B0, solutions := 0, solution := 0 }).solution ∧
    EachDigitOnce (solve 2 { board := B0, solutions := 0, solution := 0 }).solution :=
  C1_unique_completion_accepted B0 (by decide) isValid_B0 unique_completion_B0

/-- **C2**: `isValid` returns false exactly on the grids where some row,
column or aligned box holds two equal non-zero digits, and true exactly
on the consistent ones. -/
theorem C2_isValid_characterized (b : Board) :
    (isValid b = false ↔ HasDup b) ∧ (isValid b = true ↔ Consistent b) :=
  ⟨isValid_eq_false_iff b, isValid_eq_true_iff b⟩

/-- **C3**: on a consistent grid with `(r, c)` empty and `v` in 1..9,
`isSafe` answers true iff writing `v` at `(r, c)` keeps the grid
consistent. -/
theorem C3_isSafe_iff_placement_consistent (b : Board) (r c v : Nat)
    (hcons : Consistent b) (h0 : get b r c = 0) (hr : r < 9) (hc : c < 9)
    (hv1 : 1 ≤ v) (hv9 : v ≤ 9) :
    isSafe b r c v = true ↔ Consistent (set b r c v) :=
  isSafe_iff_consistent_set b r c v hcons h0 hr hc hv1 hv9

theorem C3_witness : isSafe B0 0 2 1 = true ↔ Consistent (set B0 0 2 1) :=
  C3_isSafe_iff_placement_consistent B0 0 2 1 consistent_B0 (by decide) (by decide)
    (by decide) (by decide) (by decide)

/-- **C4**: from the all-empty grid, `solve` with counter 0 and limit 2
ends with the counter at exactly 2, and the program run on nine rows of
dots prints the single line `Error`. -/
theorem C4_all_empty_ambiguous :
    (solve 2 { board := 0, solutions := 0, solution := 0 }).solutions = 2 ∧
    ∀ prog : String, run (prog :: dotRows) = ["Error"] :=
  ⟨sols_empty_board, run_dots⟩

/-- **C5**: the counter never exceeds the limit: entered at or above the
limit the call is an identity; entered at or below the limit it returns
at most the limit (so from 0 with limit 2 the result is 0, 1 or 2); and
on a full grid below the limit it increments by exactly 1. -/
theorem C5_counter_invariants (limit : Nat) (s : SState) :
    (limit ≤ s.solutions → solve limit s = s) ∧
    (s.solutions ≤ limit → (solve limit s).solutions ≤ limit) ∧
    (findEmpty s.board = none → s.solutions < limit →
      (solve limit s).solutions = s.solutions + 1) ∧
    (∀ b : Board, (solve 2 { board := b, solutions := 0, solution := 0 }).solutions ≤ 2) := by
  refine ⟨fun h => solveF_stop 82 limit s h, fun h => solveF_le 82 limit s h,
    fun hfe hlt => ?_, fun b => solveF_le 82 2 _ (Nat.zero_le 2)⟩
  rw [show solve limit s = solveF (81 + 1) limit s from rfl, solveF_succ_ite,
    if_neg (by omega), hfe]
  by_cases h1 : ({ s with solutions := s.solutions + 1 } : SState).solutions = 1
  · show (if ({ s with solutions := s.solutions + 1 } : SState).solutions = 1 then copySolution { s with solutions := s.solutions + 1 } else { s with solutions := s.solutions + 1 }).solutions = s.solutions + 1
    rw [if_pos h1, copySolution_solutions]
  · show (if ({ s with solutions := s.solutions + 1 } : SState).solutions = 1 then copySolution { s with solutions := s.solutions + 1 } else { s with solutions := s.solutions + 1 }).solutions = s.solutions + 1
    rw [if_neg h1]

theorem C5_witness :
    (solve 2 { board := 0, solutions := 2, solution := 0 } =
      { board := 0, solutions := 2, solution := 0 }) ∧
    ((solve 2 { board := SOL, solutions := 1, solution := 0 }).solutions = 1 + 1) :=
  ⟨(C5_counter_invariants 2 { board := 0, solutions := 2, solution := 0 }).1 (by decide),
   (C5_counter_invariants 2 { board := SOL, solutions := 1, solution := 0 }).2.2.1
     (by decide) (by decide)⟩

/-- **C6**: `solve` restores the working grid on every path: the board of
the returned state equals the board of the entry state, for every fuel,
limit and state; only the counter and the captured buffer may differ. -/
theorem C6_board_restored (limit : Nat) (s : SState) :
    (solve limit s).board = s.board ∧ ∀ fuel, (solveF fuel limit s).board = s.board :=
  ⟨solveF_board 82 limit s, fun fuel => solveF_board fuel limit s⟩

/-- **C7**: malformed argument lists (wrong count, wrong row length, or a
character other than `'.'` and `'1'`..`'9'`) and well-formed ones whose
grid fails `isValid` make the program print exactly `Error`, with the
solver never invoked (the Boolean of `mainModel` records invocation). -/
theorem C7_error_before_search (args : List String)
    (h : args.length ≠ 10 ∨
         (∃ s ∈ args.drop 1, s.length ≠ 9) ∨
         (∃ s ∈ args.drop 1, ∃ c ∈ s.data, ¬(c = '.' ∨ ('1' ≤ c ∧ c ≤ '9'))) ∨
         (∃ rows, parseRows (args.drop 1) = some rows ∧ isValid (pack rows) = false)) :
    mainModel args = (["Error"], false) :=
  mainModel_error_before_solve args h

theorem C7_witness : mainModel ["prog"] = (["Error"], false) :=
  C7_error_before_search ["prog"] (Or.inl (by decide))

/-- **C8**: the search is total: a grid has at most 81 empty cells, each
placement of a digit 1..9 into an empty cell strictly decreases the
number of empty cells, and any fuel exceeding the number of empty cells
computes the same result as `solve`'s fuel of 82. -/
theorem C8_terminates (limit : Nat) (s : SState) :
    countEmpty s.board ≤ 81 ∧
    (∀ r c v, r < 9 → c < 9 → get s.board r c = 0 → 1 ≤ v → v ≤ 9 →
      countEmpty (set s.board r c v) < countEmpty s.board) ∧
    (∀ fuel, countEmpty s.board < fuel → solveF fuel limit s = solve limit s) := by
  refine ⟨countEmpty_le s.board, fun r c v hr hc h0 h1 h9 => ?_,
    fun fuel h => solveF_eq_solve fuel limit s h⟩
  have := countEmpty_set s.board r c v hr hc h0 h1 h9
  omega

theorem C8_witness :
    countEmpty (set B0 0 2 1) < countEmpty B0 ∧
    solveF 82 2 { board := B0, solutions := 0, solution := 0 } =
      solve 2 { board := B0, solutions := 0, solution := 0 } :=
  ⟨(C8_terminates 2 { board := B0, solutions := 0, solution := 0 }).2.1 0 2 1
      (by decide) (by decide) (by decide) (by decide) (by decide),
   (C8_terminates 2 { board := B0, solutions := 0, solution := 0 }).2.2 82 (by decide)⟩

/-- **C9**: on the nine classic-puzzle rows the program accepts — the
counter ends at 1 — and prints exactly the nine lines
`"5 3 4 6 7 8 9 1 2"` … `"3 4 5 2 8 6 1 7 9"`, digits separated by
single spaces. -/
theorem C9_classic_puzzle_output (prog : String) :
    (solve 2 { board := B0, solutions := 0, solution := 0 }).solutions = 1 ∧
    run (prog :: puzzleRows) = solLines :=
  ⟨sols_B0, run_puzzle prog⟩

/-- **C10**: every index the embedding exposes is in bounds: `findEmpty`
only ever returns coordinates below 9 (the `(-1, -1)` sentinel is the
`none` branch, never dereferenced), cell values are below 10 so presence
slices of size 10 are indexed safely, the box scan of `isSafe` and
`isValidSubgrid` stays below 9, and the scan orders `cells` and `idx9`
only contain indices below 9. -/
theorem C10_accesses_in_bounds :
    (∀ b p, findEmpty b = some p → p.1 < 9 ∧ p.2 < 9 ∧ get b p.1 p.2 = 0) ∧
    (∀ b i j, get b i j < 10) ∧
    (∀ row col p, row < 9 → col < 9 → p ∈ boxIdx →
      row / 3 * 3 + p.1 < 9 ∧ col / 3 * 3 + p.2 < 9) ∧
    (∀ p ∈ cells, p.1 < 9 ∧ p.2 < 9) ∧ (∀ i ∈ idx9, i < 9) := by
  refine ⟨fun b p h => findEmpty_some b p h, fun b i j => get_lt_ten b i j,
    ?_, fun p hp => (mem_cells p).mp hp, fun i hi => (mem_idx9 i).mp hi⟩
  intro row col p hr hc hp
  rcases (mem_boxIdx p).mp hp with ⟨h1, h2⟩
  constructor <;> omega

theorem C10_witness : (0, 2).1 < 9 ∧ (0, 2).2 < 9 ∧ get B0 (0, 2).1 (0, 2).2 = 0 :=
  C10_accesses_in_bounds.1 B0 (0, 2) (by decide)

end Sudoku
